import Mathlib

/-!
# Backbone torsion angles of nucleic acids (`pdb_torsion.c`)

A shallow embedding of the torsion-angle calculator: the atom record, the
vector primitives, `dihedral_angle`, `find_atom`, the per-residue loop of
`compute_and_write_angles`, the reader `read_pdb_file` and `main`, followed by
the properties established about them.

Floating-point quantities are read as exact real numbers: a `float` or
`double` is a real number, `sqrt` is `Real.sqrt`, `acos` is `Real.arccos`, and
the macro `PI` (the decimal expansion of π to 21 significant digits) is π.
Where rounding decides the matter, a second reading of `dihedral_angle`,
`dihedral_angle32`, keeps the rounding of binary32 and binary64 on rational
numbers. The C `int` of a residue number is an integer; residue numbers come
from a four-column field, so `res_num - 1` and `res_num + 1` never wrap. The
input file is a stream of characters read by `fgets` into a buffer of 81
bytes, whose bytes behind the terminator keep what earlier calls stored there.
-/

namespace PdbTorsion

/-! ## Data model -/

/-- The C struct `atom_record`. -/
structure atom_record where
  number : Int
  name : String
  res_name : String
  res_number : Int
  chain_id : Char
  x : ℝ
  y : ℝ
  z : ℝ
  occupancy : ℝ
  b_factor : ℝ

instance : Inhabited atom_record :=
  ⟨⟨0, "", "", 0, ' ', 0, 0, 0, 0, 0⟩⟩

/-- A C array `float v[3]`. -/
structure Vec3 where
  c0 : ℝ
  c1 : ℝ
  c2 : ℝ

/-- The macro `PI`, read as the real number π. -/
noncomputable def PI : ℝ := Real.pi

/-! ## Vector primitives -/

/-- The C function `dot_product`. -/
def dot_product (v1 v2 : Vec3) : ℝ :=
  v1.c0 * v2.c0 + v1.c1 * v2.c1 + v1.c2 * v2.c2

/-- The C function `magnitude`. -/
noncomputable def magnitude (v : Vec3) : ℝ :=
  Real.sqrt (v.c0 * v.c0 + v.c1 * v.c1 + v.c2 * v.c2)

/-- The C function `cross_product`; the output array is the returned value. -/
def cross_product (v1 v2 : Vec3) : Vec3 :=
  ⟨v1.c1 * v2.c2 - v1.c2 * v2.c1,
   v1.c2 * v2.c0 - v1.c0 * v2.c2,
   v1.c0 * v2.c1 - v1.c1 * v2.c0⟩

/-! ## The dihedral angle -/

/-- The bond vector from atom `a` to atom `b`, as formed at the top of
`dihedral_angle`. -/
def bond (a b : atom_record) : Vec3 :=
  ⟨b.x - a.x, b.y - a.y, b.z - a.z⟩

/-- The C function `dihedral_angle`. -/
noncomputable def dihedral_angle (a1 a2 a3 a4 : atom_record) : ℝ :=
  let v1 := bond a1 a2
  let v2 := bond a2 a3
  let v3 := bond a3 a4
  let n1 := cross_product v1 v2
  let n2 := cross_product v2 v3
  let dot_prod := dot_product n1 n2
  let cross_prod := magnitude n1 * magnitude n2
  if cross_prod > 1e-8 then
    let dot_prod := if dot_prod > 1 then 1 else dot_prod
    let dot_prod := if dot_prod < -1 then -1 else dot_prod
    let angle_rad := Real.arccos (dot_prod / cross_prod)
    let triple := cross_product v2 n1
    if dot_product triple v3 < 0 then
      -angle_rad * 180 / PI
    else
      angle_rad * 180 / PI
  else
    0

/-! ## Atom lookup -/

/-- The loop of `find_atom`, entered at index `i` with `atoms` the records
from index `i` on. -/
def find_atom_from (res_num : Int) (chain : Char) (atom_name : String) :
    List atom_record → Nat → Int
  | [], _ => -1
  | a :: rest, i =>
    if a.res_number = res_num ∧ a.chain_id = chain ∧ a.name = atom_name then
      (i : Int)
    else
      find_atom_from res_num chain atom_name rest (i + 1)

/-- The C function `find_atom`; the array and its length `n_atoms` are the
list `atoms`. -/
def find_atom (atoms : List atom_record) (res_num : Int) (chain : Char)
    (atom_name : String) : Int :=
  find_atom_from res_num chain atom_name atoms 0

/-! ## The per-residue computation -/

/-- One line of the report: the residue number and the seven angles handed to
the row-writing `fprintf`. -/
structure TorsionRow where
  res_num : Int
  alpha : ℝ
  beta : ℝ
  gamma : ℝ
  delta : ℝ
  epsilon : ℝ
  zeta : ℝ
  chi : ℝ

/-- The array access `atoms[idx]` for an index returned by `find_atom`. -/
def atom_at (atoms : List atom_record) (idx : Int) : atom_record :=
  atoms.getD idx.toNat default

/-- The body of the residue loop of `compute_and_write_angles`: the lookups,
the seven angles and the row that is written, for the residue number
`res_num` and the chain identifier `chain_id` of the current atom. -/
noncomputable def residue_row (atoms : List atom_record) (res_num : Int)
    (chain_id : Char) : TorsionRow :=
  let idx_p := find_atom atoms (res_num - 1) chain_id "P"
  let idx_o5 := find_atom atoms res_num chain_id "O5'"
  let idx_c5 := find_atom atoms res_num chain_id "C5'"
  let idx_c4 := find_atom atoms res_num chain_id "C4'"
  let idx_c3 := find_atom atoms res_num chain_id "C3'"
  let idx_o3 := find_atom atoms res_num chain_id "O3'"
  let idx_c1 := find_atom atoms res_num chain_id "C1'"
  let idx_o4 := find_atom atoms res_num chain_id "O4'"
  let idx_p_next := find_atom atoms (res_num + 1) chain_id "P"
  let idx_o5_next := find_atom atoms (res_num + 1) chain_id "O5'"
  let idx_c5_next := find_atom atoms (res_num + 1) chain_id "C5'"
  let idx_n := find_atom atoms res_num chain_id "N9"
  let idx_n := if idx_n < 0 then find_atom atoms res_num chain_id "N1" else idx_n
  let alpha :=
    if idx_p ≥ 0 ∧ idx_o5 ≥ 0 ∧ idx_c5 ≥ 0 ∧ idx_c4 ≥ 0 then
      dihedral_angle (atom_at atoms idx_p) (atom_at atoms idx_o5)
        (atom_at atoms idx_c5) (atom_at atoms idx_c4)
    else 999
  let beta :=
    if idx_o5 ≥ 0 ∧ idx_c5 ≥ 0 ∧ idx_c4 ≥ 0 ∧ idx_c3 ≥ 0 then
      dihedral_angle (atom_at atoms idx_o5) (atom_at atoms idx_c5)
        (atom_at atoms idx_c4) (atom_at atoms idx_c3)
    else 999
  let gamma :=
    if idx_c5 ≥ 0 ∧ idx_c4 ≥ 0 ∧ idx_c3 ≥ 0 ∧ idx_o3 ≥ 0 then
      dihedral_angle (atom_at atoms idx_c5) (atom_at atoms idx_c4)
        (atom_at atoms idx_c3) (atom_at atoms idx_o3)
    else 999
  let delta :=
    if idx_c4 ≥ 0 ∧ idx_c3 ≥ 0 ∧ idx_o3 ≥ 0 ∧ idx_p_next ≥ 0 then
      dihedral_angle (atom_at atoms idx_c4) (atom_at atoms idx_c3)
        (atom_at atoms idx_o3) (atom_at atoms idx_p_next)
    else 999
  let epsilon :=
    if idx_c3 ≥ 0 ∧ idx_o3 ≥ 0 ∧ idx_p_next ≥ 0 ∧ idx_o5_next ≥ 0 then
      dihedral_angle (atom_at atoms idx_c3) (atom_at atoms idx_o3)
        (atom_at atoms idx_p_next) (atom_at atoms idx_o5_next)
    else 999
  let zeta :=
    if idx_o3 ≥ 0 ∧ idx_p_next ≥ 0 ∧ idx_o5_next ≥ 0 ∧ idx_c5_next ≥ 0 then
      dihedral_angle (atom_at atoms idx_o3) (atom_at atoms idx_p_next)
        (atom_at atoms idx_o5_next) (atom_at atoms idx_c5_next)
    else 999
  let chi :=
    if idx_o4 ≥ 0 ∧ idx_c1 ≥ 0 ∧ idx_n ≥ 0 then
      let idx_c_base := find_atom atoms res_num chain_id "C8"
      let idx_c_base :=
        if idx_c_base < 0 then find_atom atoms res_num chain_id "C6" else idx_c_base
      if idx_c_base ≥ 0 then
        dihedral_angle (atom_at atoms idx_o4) (atom_at atoms idx_c1)
          (atom_at atoms idx_n) (atom_at atoms idx_c_base)
      else 999
    else 999
  ⟨res_num, alpha, beta, gamma, delta, epsilon, zeta, chi⟩

/-- The residue loop of `compute_and_write_angles` over the atoms that are
still to be visited, with the current value of `res_num_prev`; `atoms` is the
whole array, which every lookup scans. -/
noncomputable def residue_loop (atoms : List atom_record) :
    List atom_record → Int → List TorsionRow
  | [], _ => []
  | a :: rest, res_num_prev =>
    let res_num := a.res_number
    let chain_id := a.chain_id
    if res_num ≠ res_num_prev then
      residue_row atoms res_num chain_id :: residue_loop atoms rest res_num
    else
      residue_loop atoms rest res_num_prev

/-- The C function `compute_and_write_angles`: the rows written to the report,
in order, once the output file has been opened (the two header lines and the
number formatting are left out). -/
noncomputable def compute_and_write_angles (atoms : List atom_record) :
    List TorsionRow :=
  residue_loop atoms atoms (-999)

/-! ## Vocabulary of the properties -/

/-- The three keys of a lookup: record `a` has residue number `res_num`, chain
identifier `chain` and a name equal to `atom_name`. -/
def key_matches (res_num : Int) (chain : Char) (atom_name : String)
    (a : atom_record) : Prop :=
  a.res_number = res_num ∧ a.chain_id = chain ∧ a.name = atom_name

instance (res_num : Int) (chain : Char) (atom_name : String) (a : atom_record) :
    Decidable (key_matches res_num chain atom_name a) := by
  unfold key_matches; infer_instance

/-- The record designated by an index that `find_atom` returned: nothing for a
negative index, the array element otherwise. -/
def found_at (atoms : List atom_record) (idx : Int) : Option atom_record :=
  if idx < 0 then none else some (atom_at atoms idx)

/-- The atom that `find_atom` returns for a query, if any. -/
def found_atom (atoms : List atom_record) (res_num : Int) (chain : Char)
    (atom_name : String) : Option atom_record :=
  found_at atoms (find_atom atoms res_num chain atom_name)

/-- The first of two lookup results that found an atom. -/
def first_found (o1 o2 : Option atom_record) : Option atom_record :=
  match o1 with
  | some a => some a
  | none => o2

/-- The value of a named angle from the results of its four lookups: the
dihedral of the four atoms when all were found, the sentinel otherwise. -/
noncomputable def angle_of (o1 o2 o3 o4 : Option atom_record) : ℝ :=
  match o1, o2, o3, o4 with
  | some a1, some a2, some a3, some a4 => dihedral_angle a1 a2 a3 a4
  | _, _, _, _ => 999

/-- The normal `n1` of `dihedral_angle`: the cross product of the first two
bond vectors. -/
def normal1 (a1 a2 a3 : atom_record) : Vec3 :=
  cross_product (bond a1 a2) (bond a2 a3)

/-- The normal `n2` of `dihedral_angle`: the cross product of the last two
bond vectors. -/
def normal2 (a2 a3 a4 : atom_record) : Vec3 :=
  cross_product (bond a2 a3) (bond a3 a4)

/-- The variable `cross_prod` of `dihedral_angle`: the product of the
magnitudes of the two normals. -/
noncomputable def cross_prod_of (a1 a2 a3 a4 : atom_record) : ℝ :=
  magnitude (normal1 a1 a2 a3) * magnitude (normal2 a2 a3 a4)

/-- The variable `dot_prod` of `dihedral_angle` after its two clamping
statements. -/
noncomputable def clamped_dot (a1 a2 a3 a4 : atom_record) : ℝ :=
  let dot_prod := dot_product (normal1 a1 a2 a3) (normal2 a2 a3 a4)
  let dot_prod := if dot_prod > 1 then 1 else dot_prod
  if dot_prod < -1 then -1 else dot_prod

/-- The value that `dihedral_angle` passes to `acos`. -/
noncomputable def acos_argument (a1 a2 a3 a4 : atom_record) : ℝ :=
  clamped_dot a1 a2 a3 a4 / cross_prod_of a1 a2 a3 a4

/-- The value tested by the sign statement of `dihedral_angle`: the dot
product of `triple` with the third bond vector. -/
def sign_test (a1 a2 a3 a4 : atom_record) : ℝ :=
  dot_product (cross_product (bond a2 a3) (normal1 a1 a2 a3)) (bond a3 a4)

/-! ## Reference values and test conformations -/

/-- The two-argument arc tangent: the argument of the complex number
`x + i y`. -/
noncomputable def atan2 (y x : ℝ) : ℝ := Complex.arg ⟨x, y⟩

/-- The analytically expected signed dihedral of four points, in degrees:
`atan2(|b2| (b1 . (b2 x b3)), (b1 x b2) . (b2 x b3)) 180 / π`. -/
noncomputable def expected_dihedral (a1 a2 a3 a4 : atom_record) : ℝ :=
  atan2
    (magnitude (bond a2 a3)
      * dot_product (bond a1 a2) (cross_product (bond a2 a3) (bond a3 a4)))
    (dot_product (cross_product (bond a1 a2) (bond a2 a3))
      (cross_product (bond a2 a3) (bond a3 a4)))
    * 180 / Real.pi

/-- An atom record at the position `(x, y, z)`, all other fields blank. -/
def atom_at_position (x y z : ℝ) : atom_record :=
  ⟨0, "", "", 0, ' ', x, y, z, 0, 0⟩

/-- The trans conformation `(2,0,0), (0,0,0), (0,0,2), (-2,0,2)`. -/
def trans1 : atom_record := atom_at_position 2 0 0
def trans2 : atom_record := atom_at_position 0 0 0
def trans3 : atom_record := atom_at_position 0 0 2
def trans4 : atom_record := atom_at_position (-2) 0 2

/-- An atom record with the given name, residue number, chain identifier and
position, all other fields blank. -/
def named_atom (name : String) (res_number : Int) (chain_id : Char)
    (x y z : ℝ) : atom_record :=
  ⟨0, name, "", res_number, chain_id, x, y, z, 0, 0⟩

/-- A two-residue chain `A`: residue 1 is a purine (it has `N9` and `C8`),
residue 2 a pyrimidine (it has `N1` and `C6`, and neither `N9` nor `C8`). -/
def sample_chain : List atom_record :=
  [named_atom "P" 1 'A' 0 0 0, named_atom "O5'" 1 'A' 1 0 0,
   named_atom "C5'" 1 'A' 1 1 0, named_atom "C4'" 1 'A' 1 1 1,
   named_atom "C3'" 1 'A' 2 1 1, named_atom "O3'" 1 'A' 2 2 1,
   named_atom "C1'" 1 'A' 0 1 1, named_atom "O4'" 1 'A' 0 1 0,
   named_atom "N9" 1 'A' 0 2 1, named_atom "C8" 1 'A' 1 2 2,
   named_atom "P" 2 'A' 2 2 2, named_atom "O5'" 2 'A' 3 2 2,
   named_atom "C5'" 2 'A' 3 3 2, named_atom "C4'" 2 'A' 3 3 3,
   named_atom "C3'" 2 'A' 4 3 3, named_atom "O3'" 2 'A' 4 4 3,
   named_atom "C1'" 2 'A' 2 3 3, named_atom "O4'" 2 'A' 2 3 2,
   named_atom "N1" 2 'A' 2 4 3, named_atom "C6" 2 'A' 3 4 4]

/-- The positions of four atoms lie on one line: each is a point `p` plus a
multiple of a direction `d`. -/
def on_one_line (a1 a2 a3 a4 : atom_record) : Prop :=
  ∃ (px py pz dx dy dz t1 t2 t3 t4 : ℝ),
    (a1.x = px + t1 * dx ∧ a1.y = py + t1 * dy ∧ a1.z = pz + t1 * dz) ∧
    (a2.x = px + t2 * dx ∧ a2.y = py + t2 * dy ∧ a2.z = pz + t2 * dz) ∧
    (a3.x = px + t3 * dx ∧ a3.y = py + t3 * dy ∧ a3.z = pz + t3 * dz) ∧
    (a4.x = px + t4 * dx ∧ a4.y = py + t4 * dy ∧ a4.z = pz + t4 * dz)

/-- Four atoms on the x axis. -/
def line1 : atom_record := atom_at_position 0 0 0
def line2 : atom_record := atom_at_position 1 0 0
def line3 : atom_record := atom_at_position 2 0 0
def line4 : atom_record := atom_at_position 3 0 0

/-- A right-angle conformation `(1,0,0), (0,0,0), (0,0,1), (0,1,1)`: the two
normals are perpendicular unit vectors. -/
def right1 : atom_record := atom_at_position 1 0 0
def right2 : atom_record := atom_at_position 0 0 0
def right3 : atom_record := atom_at_position 0 0 1
def right4 : atom_record := atom_at_position 0 1 1

/-- The clamp of the specification: `x` limited to the interval `[lo, hi]`. -/
noncomputable def clamp (x lo hi : ℝ) : ℝ :=
  if x < lo then lo else if x > hi then hi else x

/-- Step 4 of the algorithm of the specification: the unsigned angle
`acos(clamp(dot(n1,n2) / (|n1| |n2|), -1, 1))`, in radians. -/
noncomputable def spec_unsigned_angle (a1 a2 a3 a4 : atom_record) : ℝ :=
  Real.arccos
    (clamp
      (dot_product (normal1 a1 a2 a3) (normal2 a2 a3 a4)
        / (magnitude (normal1 a1 a2 a3) * magnitude (normal2 a2 a3 a4)))
      (-1) 1)

/-- The six-step algorithm of the specification. Step 3 ("either normal has
near-zero magnitude, or the product of magnitudes is at most 1e-8") is read
with the one threshold the text gives. -/
noncomputable def spec_dihedral_angle (a1 a2 a3 a4 : atom_record) : ℝ :=
  let b2 := bond a2 a3
  let b3 := bond a3 a4
  let n1 := normal1 a1 a2 a3
  let n2 := normal2 a2 a3 a4
  if magnitude n1 ≤ 1e-8 ∨ magnitude n2 ≤ 1e-8
      ∨ magnitude n1 * magnitude n2 ≤ 1e-8 then
    0
  else
    let angle := spec_unsigned_angle a1 a2 a3 a4
    let t := cross_product b2 n1
    let angle := if dot_product t b3 < 0 then -angle else angle
    angle * 180 / Real.pi

/-- The cis conformation `(2,0,0), (0,0,0), (0,0,2), (2,0,2)`: the two normals
are equal, of magnitude 4. -/
def cis1 : atom_record := atom_at_position 2 0 0
def cis2 : atom_record := atom_at_position 0 0 0
def cis3 : atom_record := atom_at_position 0 0 2
def cis4 : atom_record := atom_at_position 2 0 2

/-- The maximal contiguous blocks of atoms having the same residue number, in
input order. -/
def residue_blocks (atoms : List atom_record) : List (List atom_record) :=
  atoms.splitBy (fun a b => decide (a.res_number = b.res_number))

/-- The row computed with the residue number and the chain identifier of the
first atom of a block. -/
noncomputable def block_row (atoms : List atom_record)
    (block : List atom_record) : Option TorsionRow :=
  block.head?.map (fun a => residue_row atoms a.res_number a.chain_id)

/-- An atom list whose first residue has the number -999 (a value that fits
the four columns of the residue number field) and whose second residue has
the number -998. -/
def chain_from_minus_999 : List atom_record :=
  [named_atom "P" (-999) 'A' 0 0 0, named_atom "O5'" (-999) 'A' 1 0 0,
   named_atom "P" (-998) 'A' 2 2 2]

/-- The mirror image of an atom in the plane `z = 0`. -/
def mirror (a : atom_record) : atom_record :=
  { a with z := -a.z }

/-! ## The minimal two-residue chain -/

/-- The two-residue chain `A` in which residue 1 has exactly the atoms O5',
C5', C4', C3', O3' and residue 2 the full backbone P, O5', C5', C4', C3',
O3'; the k-th atom sits at the position `pos k`. -/
def minimal_chain (pos : Nat → Vec3) : List atom_record :=
  [named_atom "O5'" 1 'A' (pos 0).c0 (pos 0).c1 (pos 0).c2,
   named_atom "C5'" 1 'A' (pos 1).c0 (pos 1).c1 (pos 1).c2,
   named_atom "C4'" 1 'A' (pos 2).c0 (pos 2).c1 (pos 2).c2,
   named_atom "C3'" 1 'A' (pos 3).c0 (pos 3).c1 (pos 3).c2,
   named_atom "O3'" 1 'A' (pos 4).c0 (pos 4).c1 (pos 4).c2,
   named_atom "P" 2 'A' (pos 5).c0 (pos 5).c1 (pos 5).c2,
   named_atom "O5'" 2 'A' (pos 6).c0 (pos 6).c1 (pos 6).c2,
   named_atom "C5'" 2 'A' (pos 7).c0 (pos 7).c1 (pos 7).c2,
   named_atom "C4'" 2 'A' (pos 8).c0 (pos 8).c1 (pos 8).c2,
   named_atom "C3'" 2 'A' (pos 9).c0 (pos 9).c1 (pos 9).c2,
   named_atom "O3'" 2 'A' (pos 10).c0 (pos 10).c1 (pos 10).c2]

/-- A zigzag of unit steps along the x, y and z axes in turn: `(0,0,0)`,
`(1,0,0)`, `(1,1,0)`, `(1,1,1)`, `(2,1,1)`, ...; any four consecutive points
are non-degenerate. -/
def zigzag (k : Nat) : Vec3 :=
  ⟨(((k + 2) / 3 : Nat) : ℝ), (((k + 1) / 3 : Nat) : ℝ), ((k / 3 : Nat) : ℝ)⟩

/-! ## Further test inputs -/

/-- Two chains whose residues carry the same number: residue 1 of chain `A`
(a single P) directly followed by residue 1 of chain `B` (O5', C5', C4',
C3'). -/
def two_chains : List atom_record :=
  [named_atom "P" 1 'A' 0 0 0,
   named_atom "O5'" 1 'B' 1 0 0, named_atom "C5'" 1 'B' 0 0 0,
   named_atom "C4'" 1 'B' 0 0 1, named_atom "C3'" 1 'B' 0 1 1]

/-- A pyrimidine residue with O4', C1', N1 and C2 and no other atom. -/
def pyrimidine_c2 : List atom_record :=
  [named_atom "O4'" 1 'A' 1 0 0, named_atom "C1'" 1 'A' 0 0 0,
   named_atom "N1" 1 'A' 0 0 1, named_atom "C2" 1 'A' 0 1 1]

/-- A pyrimidine residue with O4', C1', N1, C2 and C6. -/
def pyrimidine_c2_c6 : List atom_record :=
  [named_atom "O4'" 1 'A' 1 0 0, named_atom "C1'" 1 'A' 0 0 0,
   named_atom "N1" 1 'A' 0 0 1, named_atom "C2" 1 'A' 0 1 1,
   named_atom "C6" 1 'A' 1 0 1]

/-- The mirror image of an atom in the plane through the point `p` with the
normal vector `u`. -/
noncomputable def reflect (p u : Vec3) (a : atom_record) : atom_record :=
  let s := 2 * (((a.x - p.c0) * u.c0 + (a.y - p.c1) * u.c1 + (a.z - p.c2) * u.c2)
    / dot_product u u)
  { a with x := a.x - s * u.c0, y := a.y - s * u.c1, z := a.z - s * u.c2 }

/-- The mirror image of a vector in a plane with the normal vector `u`. -/
noncomputable def reflect_vector (u b : Vec3) : Vec3 :=
  ⟨b.c0 - 2 * (dot_product b u / dot_product u u) * u.c0,
   b.c1 - 2 * (dot_product b u / dot_product u u) * u.c1,
   b.c2 - 2 * (dot_product b u / dot_product u u) * u.c2⟩

/-! ## Reading the PDB file -/

/-- The macro `MAX_ATOMS`. -/
def MAX_ATOMS : Nat := 5000

/-- The string terminator of C. -/
def NUL : Char := Char.ofNat 0

/-- The newline character. -/
def LF : Char := Char.ofNat 10

/-- One call of `fgets` that may store up to `n` characters, on the rest of
the input stream: the characters read (reading stops after a newline) and
the stream that is left. -/
def fgets_read : Nat → List Char → List Char × List Char
  | 0, s => ([], s)
  | _ + 1, [] => ([], [])
  | n + 1, c :: s =>
    if c = LF then ([c], s)
    else (c :: (fgets_read n s).1, (fgets_read n s).2)

/-- The strings returned by the successive calls `fgets(line, 81, fp)` until
the end of the stream; every call on a non-empty stream consumes a character,
so a fuel of the stream's length is enough. -/
def fgets_all : Nat → List Char → List (List Char)
  | 0, _ => []
  | _ + 1, [] => []
  | fuel + 1, c :: s =>
    (fgets_read 80 (c :: s)).1 :: fgets_all fuel (fgets_read 80 (c :: s)).2

/-- The content of the buffer `line` after `fgets` has stored `chunk` in it:
the characters read, the terminator, and behind it whatever the buffer held
before. -/
def fgets_store (buf chunk : List Char) : List Char :=
  chunk ++ NUL :: buf.drop (chunk.length + 1)

/-- The C string that starts at `line + k`: the characters of the buffer from
offset `k` up to the next terminator. -/
def c_string_at (buf : List Char) (k : Nat) : List Char :=
  (buf.drop k).takeWhile (fun c => decide (c ≠ NUL))

/-- The string left by `strncpy(dst, line + k, n); dst[n] = 0`. -/
def strncpy_at (buf : List Char) (k n : Nat) : List Char :=
  (c_string_at buf k).take n

/-- The white space that `sscanf` skips (`isspace` of the C locale). -/
def is_space (c : Char) : Bool :=
  c.toNat = 32 || (9 ≤ c.toNat && c.toNat ≤ 13)

/-- The digits at the start of a string, at most `width` of them. -/
def scan_digits : Nat → List Char → List Char
  | 0, _ => []
  | _ + 1, [] => []
  | width + 1, c :: s => if c.isDigit then c :: scan_digits width s else []

/-- The number written by a string of decimal digits. -/
def digits_value (ds : List Char) : Nat :=
  ds.foldl (fun n c => 10 * n + (c.toNat - 48)) 0

/-- The conversion `%<width>d` of `sscanf`: white space is skipped without
counting, then an optional sign and decimal digits are read, `width`
characters at most; nothing is converted when no digit is found. -/
def scan_int (width : Nat) (s : List Char) : Option Int :=
  match s.dropWhile is_space with
  | [] => none
  | c :: rest =>
    if c = '-' then
      if scan_digits (width - 1) rest = [] then none
      else some (-(digits_value (scan_digits (width - 1) rest) : Int))
    else if c = '+' then
      if scan_digits (width - 1) rest = [] then none
      else some (digits_value (scan_digits (width - 1) rest) : Int)
    else
      if scan_digits width (c :: rest) = [] then none
      else some (digits_value (scan_digits width (c :: rest)) : Int)

/-- The conversion `%<width>f` of `sscanf` on decimal notation: white space is
skipped without counting, then an optional sign, digits, an optional point
and more digits are read, `width` characters at most; nothing is converted
when no digit is found. The result is the pair of the signed digit string
read as an integer and the number of digits behind the point. Exponents,
hexadecimal notation, infinities and NaN are not covered. -/
def scan_float (width : Nat) (s : List Char) : Option (Int × Nat) :=
  let s := s.dropWhile is_space
  let negative := s.head? = some '-'
  let signed := s.head? = some '-' ∨ s.head? = some '+'
  let s1 := if signed then s.drop 1 else s
  let w1 := if signed then width - 1 else width
  let int_part := scan_digits w1 s1
  let s2 := s1.drop int_part.length
  let w2 := w1 - int_part.length
  let frac_part :=
    if 1 ≤ w2 ∧ s2.head? = some '.' then scan_digits (w2 - 1) (s2.drop 1) else []
  if int_part = [] ∧ frac_part = [] then none
  else if negative then some (-(digits_value (int_part ++ frac_part) : Int), frac_part.length)
  else some ((digits_value (int_part ++ frac_part) : Int), frac_part.length)

/-- The real number denoted by a digit string read as an integer with a
number of digits behind the point. -/
noncomputable def decimal_value (m : Int × Nat) : ℝ :=
  (m.1 : ℝ) / 10 ^ m.2

/-- The scalar locals of `read_pdb_file` that the `sscanf` calls assign; a
conversion that fails leaves its variable as it was. -/
structure scan_locals where
  atom_num_local : Int
  res_num : Int
  x_coord : ℝ
  y_coord : ℝ
  z_coord : ℝ
  occ : ℝ
  b_fact : ℝ

/-- The body of the `ATOM` branch of `read_pdb_file` on the buffer `line`:
the new values of the locals and the record stored in the array. -/
noncomputable def parse_atom (line : List Char) (loc : scan_locals) :
    scan_locals × atom_record :=
  let atom_num_local := (scan_int 5 (c_string_at line 6)).getD loc.atom_num_local
  let atom_name_str := strncpy_at line 12 4
  let res_name_str := strncpy_at line 17 3
  let chain_id_str := line.getD 21 NUL
  let res_num := (scan_int 4 (c_string_at line 22)).getD loc.res_num
  let x_coord := ((scan_float 8 (c_string_at line 30)).map decimal_value).getD loc.x_coord
  let y_coord := ((scan_float 8 (c_string_at line 38)).map decimal_value).getD loc.y_coord
  let z_coord := ((scan_float 8 (c_string_at line 46)).map decimal_value).getD loc.z_coord
  let occ := ((scan_float 6 (c_string_at line 54)).map decimal_value).getD loc.occ
  let b_fact := ((scan_float 6 (c_string_at line 60)).map decimal_value).getD loc.b_fact
  (⟨atom_num_local, res_num, x_coord, y_coord, z_coord, occ, b_fact⟩,
   ⟨atom_num_local, String.mk atom_name_str, String.mk res_name_str, res_num,
    chain_id_str, x_coord, y_coord, z_coord, occ, b_fact⟩)

/-- The `while (fgets(...))` loop of `read_pdb_file` over the strings that the
successive `fgets` calls return, with the buffer, the locals and the atoms
stored so far; the result is the array at the end of the loop. -/
noncomputable def read_loop :
    List (List Char) → List Char → scan_locals → List atom_record → List atom_record
  | [], _, _, atoms => atoms
  | chunk :: rest, buf, loc, atoms =>
    let line := fgets_store buf chunk
    let record_type := strncpy_at line 0 6
    if record_type = "ATOM  ".toList then
      if atoms.length ≥ MAX_ATOMS then atoms
      else
        read_loop rest line (parse_atom line loc).1 (atoms ++ [(parse_atom line loc).2])
    else if record_type = "END   ".toList then atoms
    else read_loop rest line loc atoms

/-- The atom array that `read_pdb_file` has built when its loop ends, for a
file with the given content; `buf0` and `loc0` are the indeterminate initial
contents of the buffer `line` and of the scalar locals. -/
noncomputable def atoms_read (content : List Char) (buf0 : List Char)
    (loc0 : scan_locals) : List atom_record :=
  read_loop (fgets_all content.length content) buf0 loc0 []

/-- The C function `read_pdb_file`: `file` is the content of the named file, or
nothing when it cannot be opened; the result is the atom array, or the status
of `exit` when the function terminates the program. -/
noncomputable def read_pdb_file (file : Option (List Char)) (buf0 : List Char)
    (loc0 : scan_locals) : Except Nat (List atom_record) :=
  match file with
  | none => Except.error 1
  | some content =>
    if (atoms_read content buf0 loc0).length = 0 then Except.error 1
    else Except.ok (atoms_read content buf0 loc0)

/-- How a run of the program ends. -/
inductive run_outcome where
  | usage_error : run_outcome
  | alloc_error : run_outcome
  | exit_in_read_pdb_file (status : Nat) : run_outcome
  | finished (status : Nat) (report : Option (List TorsionRow)) : run_outcome

/-- The exit status of a run. -/
def run_outcome.exit_status : run_outcome → Nat
  | usage_error => 1
  | alloc_error => 1
  | exit_in_read_pdb_file status => status
  | finished status _ => status

/-- The rows written to the output file, if the run has opened it. -/
def run_outcome.report_written : run_outcome → Option (List TorsionRow)
  | usage_error => none
  | alloc_error => none
  | exit_in_read_pdb_file _ => none
  | finished _ report => report

/-- The C function `main`: `argv` are the arguments (the program name first),
`fopen_r` gives the content of an input file that can be opened, `fopen_w`
tells whether an output file can be opened and `malloc_ok` whether the atom
array can be allocated. -/
noncomputable def main (argv : List String) (fopen_r : String → Option (List Char))
    (fopen_w : String → Bool) (malloc_ok : Bool) (buf0 : List Char)
    (loc0 : scan_locals) : run_outcome :=
  if argv.length < 2 then run_outcome.usage_error
  else
    let pdb_file := argv.getD 1 ""
    let output_file := if argv.length ≥ 3 then argv.getD 2 "" else "torsion_angles.dat"
    if malloc_ok = false then run_outcome.alloc_error
    else
      match read_pdb_file (fopen_r pdb_file) buf0 loc0 with
      | Except.error status => run_outcome.exit_in_read_pdb_file status
      | Except.ok atoms =>
        run_outcome.finished 0
          (if fopen_w output_file then some (compute_and_write_angles atoms) else none)

/-- A text file as a stream of characters: every line is followed by a
newline. -/
def file_of_lines : List (List Char) → List Char
  | [] => []
  | l :: ls => l ++ LF :: file_of_lines ls

/-- The first six characters of a line are `ATOM  `. -/
def is_atom_line (l : List Char) : Prop := l.take 6 = "ATOM  ".toList

/-- The first six characters of a line are `END   `. -/
def is_end_line (l : List Char) : Prop := l.take 6 = "END   ".toList

instance (l : List Char) : Decidable (is_atom_line l) := by
  unfold is_atom_line; infer_instance

instance (l : List Char) : Decidable (is_end_line l) := by
  unfold is_end_line; infer_instance

/-- The lines whose first six characters are `ATOM  ` among the lines that
precede the first line whose first six characters are `END   `, in file
order. -/
def atom_lines_before_end (lines : List (List Char)) : List (List Char) :=
  (lines.takeWhile (fun l => decide (¬ is_end_line l))).filter
    (fun l => decide (is_atom_line l))

/-- The string that the first `fgets` call on a line returns. -/
def first_chunk (line : List Char) : List Char :=
  (fgets_read 80 (line ++ [LF])).1

/-- The record `rec` is the one that the `ATOM` branch stores when the buffer
holds the string `chunk` (behind it the buffer may hold anything, and the
locals may have any values). -/
def parsed_from (chunk : List Char) (rec : atom_record) : Prop :=
  ∃ (buf : List Char) (loc : scan_locals),
    rec = (parse_atom (fgets_store buf chunk) loc).2

/-- A buffer of 81 terminators. -/
def blank_buffer : List Char := List.replicate 81 NUL

/-- Locals that are all zero. -/
def zero_locals : scan_locals := ⟨0, 0, 0, 0, 0, 0, 0⟩

/-- An `ATOM` line in the fixed-column layout, generated from the coordinates
x = 1.000, y = 1234.567, z = 2.000: columns 31-38 are `   1.000`, columns
39-46 are `1234.567`, columns 47-54 are `   2.000`. -/
def wide_y_line : List Char :=
  "ATOM      1  P     A A   1       1.0001234.567   2.000  1.00  0.00".toList

/-- A file whose first line has 86 characters, `REMARK` followed by 74 blanks
and `END   `, and whose second line is an `ATOM` line. -/
def long_remark_lines : List (List Char) :=
  ["REMARK".toList ++ List.replicate 74 ' ' ++ "END   ".toList, wide_y_line]

/-- A file of one line of 86 characters: 80 blanks followed by `ATOM  `. -/
def long_blank_lines : List (List Char) :=
  [List.replicate 80 ' ' ++ "ATOM  ".toList]

/-- A small well-formed file: a remark, two `ATOM` lines, `END`, and one more
`ATOM` line behind it. -/
def small_file_lines : List (List Char) :=
  ["REMARK sample".toList,
   "ATOM      1  P     A A   1       0.000   0.000   0.000  1.00  0.00".toList,
   "ATOM      2  O5'   A A   1       1.000   0.000   0.000  1.00  0.00".toList,
   "END   ".toList,
   "ATOM      3  C5'   A A   1       1.000   1.000   0.000  1.00  0.00".toList]

/-- A file without any `ATOM` line before its `END` line. -/
def headless_file_lines : List (List Char) :=
  ["REMARK sample".toList, "HETATM    1  O   HOH A   1       0.000   0.000   0.000".toList,
   "END   ".toList,
   "ATOM      3  C5'   A A   1       1.000   1.000   0.000  1.00  0.00".toList]

/-- The atom names that `compute_and_write_angles` looks up. -/
def query_names : List String :=
  ["P", "O5'", "C5'", "C4'", "C3'", "O3'", "C1'", "O4'", "N9", "N1", "C8", "C6"]

/-- The strings that the successive `fgets` calls return for a file whose lines
have at most 80 characters: a line of fewer than 80 characters comes with its
newline, a line of 80 characters fills the buffer and its newline is returned
by a call of its own. -/
def chunks_of_lines : List (List Char) → List (List Char)
  | [] => []
  | l :: ls =>
    if l.length < 80 then (l ++ [LF]) :: chunks_of_lines ls
    else l :: [LF] :: chunks_of_lines ls

/-! ## The arithmetic of the machine

A second reading of `dihedral_angle`, with the rounding of the machine: a
finite `float` is a rational number with 24 significant binary digits, a
finite `double` one with 53, every operation is rounded to the nearest such
number with ties to even, each `float` operation separately (no excess
precision, no fused multiply-add), and `sqrt` is correctly rounded. The
exponent range is not modelled, so the reading covers values that neither
overflow nor fall into the subnormal range; `acos` is a parameter. -/

/-- The number of binary digits of `n`, found in at most `fuel` halvings. -/
def bit_length_fuel : Nat → Nat → Nat
  | 0, _ => 0
  | fuel + 1, n => if n = 0 then 0 else bit_length_fuel fuel (n / 2) + 1

/-- The number of binary digits of `n`. -/
def bit_length (n : Nat) : Nat := bit_length_fuel n n

/-- The integer nearest to `q`, a tie going to the even one. -/
def round_half_even (q : ℚ) : ℤ :=
  if q - ⌊q⌋ < 1 / 2 then ⌊q⌋
  else if 1 / 2 < q - ⌊q⌋ then ⌊q⌋ + 1
  else if ⌊q⌋ % 2 = 0 then ⌊q⌋ else ⌊q⌋ + 1

/-- Rounding to the nearest binary floating-point number with `p` significant
digits, ties to even (`p` = 24 for `float`, 53 for `double`): `e` is the
exponent of the last digit, the one with `2 ^ (p - 1) ≤ |x| / 2 ^ e < 2 ^ p`. -/
def round_to (p : Nat) (x : ℚ) : ℚ :=
  if x = 0 then 0
  else
    let e0 : ℤ := (bit_length x.num.natAbs : ℤ) - (bit_length x.den : ℤ) - (p : ℤ)
    let e : ℤ := if (2 : ℚ) ^ p ≤ |x| / (2 : ℚ) ^ e0 then e0 + 1 else e0
    (if x < 0 then -1 else 1) * (round_half_even (|x| / (2 : ℚ) ^ e) : ℚ) * (2 : ℚ) ^ e

/-- The integer square root by binary digits: `r` holds the digits found so
far, the digits below position `i` are still to be found. -/
def isqrt_bits (n : Nat) : Nat → Nat → Nat
  | 0, r => r
  | i + 1, r =>
    if (r + 2 ^ i) * (r + 2 ^ i) ≤ n then isqrt_bits n i (r + 2 ^ i)
    else isqrt_bits n i r

/-- The integer part of the square root of `n`. -/
def isqrt (n : Nat) : Nat := isqrt_bits n (bit_length n) 0

/-- The correctly rounded square root with `p` significant digits of a number
that is not negative: the root is taken with more than `p + 2` digits, half a
unit is added when it is not exact, and the sum is rounded. -/
def sqrt_round (p : Nat) (x : ℚ) : ℚ :=
  let k := p + 2 + bit_length x.den
  let s := isqrt (x.num.natAbs * 4 ^ k / x.den)
  let sticky : ℚ := if s * s * x.den = x.num.natAbs * 4 ^ k then 0 else 1 / 2
  round_to p (((s : ℚ) + sticky) / 2 ^ k)

/-- The sum of two `float` values, as a `float`. -/
def float_add (a b : ℚ) : ℚ := round_to 24 (a + b)

/-- The difference of two `float` values, as a `float`. -/
def float_sub (a b : ℚ) : ℚ := round_to 24 (a - b)

/-- The product of two `float` values, as a `float`. -/
def float_mul (a b : ℚ) : ℚ := round_to 24 (a * b)

/-- The quotient of two `float` values, as a `float`. -/
def float_div (a b : ℚ) : ℚ := round_to 24 (a / b)

/-- A C array `float v[3]` with its binary32 values. -/
structure Vec3f where
  c0 : ℚ
  c1 : ℚ
  c2 : ℚ
deriving DecidableEq

/-- The fields `x`, `y`, `z` of an atom record with their binary32 values. -/
structure float_position where
  x : ℚ
  y : ℚ
  z : ℚ

/-- The vector between consecutive atoms as `dihedral_angle` forms it, in
binary32. -/
def bond32 (a b : float_position) : Vec3f :=
  ⟨float_sub b.x a.x, float_sub b.y a.y, float_sub b.z a.z⟩

/-- The C function `cross_product` in binary32. -/
def cross_product32 (v1 v2 : Vec3f) : Vec3f :=
  ⟨float_sub (float_mul v1.c1 v2.c2) (float_mul v1.c2 v2.c1),
   float_sub (float_mul v1.c2 v2.c0) (float_mul v1.c0 v2.c2),
   float_sub (float_mul v1.c0 v2.c1) (float_mul v1.c1 v2.c0)⟩

/-- The C function `dot_product` in binary32. -/
def dot_product32 (v1 v2 : Vec3f) : ℚ :=
  float_add (float_add (float_mul v1.c0 v2.c0) (float_mul v1.c1 v2.c1))
    (float_mul v1.c2 v2.c2)

/-- The C function `magnitude`: the sum of squares in binary32, the `sqrt` of
`math.h` on its conversion to `double`, and the conversion of the returned
`double` to `float`. -/
def magnitude32 (v : Vec3f) : ℚ :=
  round_to 24 (sqrt_round 53
    (float_add (float_add (float_mul v.c0 v.c0) (float_mul v.c1 v.c1))
      (float_mul v.c2 v.c2)))

/-- The variable `cross_prod` of `dihedral_angle` in binary32. -/
def cross_prod32 (a1 a2 a3 a4 : float_position) : ℚ :=
  float_mul (magnitude32 (cross_product32 (bond32 a1 a2) (bond32 a2 a3)))
    (magnitude32 (cross_product32 (bond32 a2 a3) (bond32 a3 a4)))

/-- The constant `1e-8` as the compiler reads it: the nearest `double`. -/
def guard_bound64 : ℚ := round_to 53 (1 / 10 ^ 8)

/-- The guard `cross_prod > 1e-8` of `dihedral_angle` in machine arithmetic:
the `float` is compared with the `double` constant. -/
def takes_acos_branch32 (a1 a2 a3 a4 : float_position) : Prop :=
  cross_prod32 a1 a2 a3 a4 > guard_bound64

/-- The value `dot_prod / cross_prod` that `dihedral_angle` passes to `acos`,
in binary32, `dot_prod` having been clamped to `[-1, 1]` first. -/
def acos_argument32 (a1 a2 a3 a4 : float_position) : ℚ :=
  let dot_prod := dot_product32 (cross_product32 (bond32 a1 a2) (bond32 a2 a3))
    (cross_product32 (bond32 a2 a3) (bond32 a3 a4))
  let dot_prod := if dot_prod > 1 then 1 else dot_prod
  let dot_prod := if dot_prod < -1 then -1 else dot_prod
  float_div dot_prod (cross_prod32 a1 a2 a3 a4)

/-- The value tested by the sign statement of `dihedral_angle`, in binary32:
`dot_product(triple, v3)` with `triple = v2 x n1`. -/
def sign_test32 (a1 a2 a3 a4 : float_position) : ℚ :=
  dot_product32
    (cross_product32 (bond32 a2 a3) (cross_product32 (bond32 a1 a2) (bond32 a2 a3)))
    (bond32 a3 a4)

/-- The macro `PI` as the compiler reads it: the `double` nearest to the
decimal literal. -/
def PI64 : ℚ := round_to 53 (314159265358979323846 / 10 ^ 20)

/-- The C function `dihedral_angle` in the arithmetic of the machine: `float`
operations are rounded to binary32, the `double` expression
`angle_rad * 180.0 / PI` is rounded to binary64 operation by operation and its
value to binary32 in the assignment; `acos64` is the function `acos` of
`math.h`, whose `double` result is rounded to binary32 in the assignment to
`angle_rad`. -/
def dihedral_angle32 (acos64 : ℚ → ℚ) (a1 a2 a3 a4 : float_position) : ℚ :=
  if cross_prod32 a1 a2 a3 a4 > guard_bound64 then
    let angle_rad := round_to 24 (acos64 (acos_argument32 a1 a2 a3 a4))
    if sign_test32 a1 a2 a3 a4 < 0 then
      round_to 24 (round_to 53 (round_to 53 (-angle_rad * 180) / PI64))
    else
      round_to 24 (round_to 53 (round_to 53 (angle_rad * 180) / PI64))
  else 0

/-- The atom record of the exact reading at a binary32 position. -/
def exact_atom (a : float_position) : atom_record :=
  atom_at_position (a.x : ℝ) (a.y : ℝ) (a.z : ℝ)

/-- Four positions with binary32 coordinates on the line `y = 3 x`, `z = 0`:
the first. -/
def far1 : float_position := ⟨0, 0, 0⟩

/-- The second position on the line `y = 3 x`, `z = 0`. -/
def far2 : float_position := ⟨1, 3, 0⟩

/-- The third position on the line `y = 3 x`, `z = 0`. -/
def far3 : float_position := ⟨16777220, 50331660, 0⟩

/-- The fourth position on the line `y = 3 x`, `z = 0`. -/
def far4 : float_position := ⟨16777224, 50331672, 0⟩

/-- Four positions whose two planes are perpendicular up to rounding: the
binary32 numbers nearest to `(19.215, 6.515, 1.683)`, here, and to
`(20.428, 6.624, 1.176)`, `(21.324, 5.813, 0.941)`, `(20.612, 6.028, 0.218)`. -/
def skew1 : float_position :=
  ⟨round_to 24 (19215 / 1000), round_to 24 (6515 / 1000), round_to 24 (1683 / 1000)⟩

/-- The binary32 position nearest to `(20.428, 6.624, 1.176)`. -/
def skew2 : float_position :=
  ⟨round_to 24 (20428 / 1000), round_to 24 (6624 / 1000), round_to 24 (1176 / 1000)⟩

/-- The binary32 position nearest to `(21.324, 5.813, 0.941)`. -/
def skew3 : float_position :=
  ⟨round_to 24 (21324 / 1000), round_to 24 (5813 / 1000), round_to 24 (941 / 1000)⟩

/-- The binary32 position nearest to `(20.612, 6.028, 0.218)`. -/
def skew4 : float_position :=
  ⟨round_to 24 (20612 / 1000), round_to 24 (6028 / 1000), round_to 24 (218 / 1000)⟩

/-! ## Properties of `find_atom` -/

theorem find_atom_from_spec (r : Int) (c : Char) (nm : String) :
    ∀ (l : List atom_record) (i : Nat),
      (find_atom_from r c nm l i = -1 ∧ ∀ a ∈ l, ¬ key_matches r c nm a) ∨
      (∃ k a, find_atom_from r c nm l i = ((i + k : Nat) : Int) ∧ l[k]? = some a ∧
        key_matches r c nm a ∧
        ∀ j b, j < k → l[j]? = some b → ¬ key_matches r c nm b) := by
  intro l
  induction l with
  | nil => intro i; left; simp [find_atom_from]
  | cons a rest ih =>
    intro i
    by_cases h : key_matches r c nm a
    · right
      refine ⟨0, a, ?_, by simp, h, ?_⟩
      · have h2 : a.res_number = r ∧ a.chain_id = c ∧ a.name = nm := h
        simp [find_atom_from, h2]
      · intro j b hj; omega
    · have h2 : ¬ (a.res_number = r ∧ a.chain_id = c ∧ a.name = nm) := h
      have hstep : find_atom_from r c nm (a :: rest) i
          = find_atom_from r c nm rest (i + 1) := by
        simp only [find_atom_from]; rw [if_neg h2]
      rcases ih (i + 1) with ⟨h1, hall⟩ | ⟨k, b, hk, hb, hm, hfirst⟩
      · left
        refine ⟨by rw [hstep, h1], ?_⟩
        intro x hx
        rcases List.mem_cons.mp hx with rfl | hx
        · exact h
        · exact hall x hx
      · right
        refine ⟨k + 1, b, ?_, by simpa using hb, hm, ?_⟩
        · rw [hstep, hk]; congr 1; omega
        · intro j b2 hj hjb
          cases j with
          | zero =>
            simp at hjb; subst hjb; exact h
          | succ j =>
            simp at hjb
            exact hfirst j b2 (by omega) hjb

theorem find_atom_cases (atoms : List atom_record) (r : Int) (c : Char)
    (nm : String) :
    (find_atom atoms r c nm = -1 ∧ ∀ a ∈ atoms, ¬ key_matches r c nm a) ∨
    (∃ (k : Nat) (a : atom_record), find_atom atoms r c nm = (k : Int) ∧
      atoms[k]? = some a ∧
      key_matches r c nm a ∧
      ∀ j b, j < k → atoms[j]? = some b → ¬ key_matches r c nm b) := by
  rcases find_atom_from_spec r c nm atoms 0 with h | ⟨k, a, hk, ha, hm, hf⟩
  · exact Or.inl h
  · refine Or.inr ⟨k, a, ?_, ha, hm, hf⟩
    unfold find_atom; rw [hk]; simp

theorem found_atom_none_iff (atoms : List atom_record) (r : Int) (c : Char)
    (nm : String) :
    found_atom atoms r c nm = none ↔ ∀ a ∈ atoms, ¬ key_matches r c nm a := by
  unfold found_atom found_at
  rcases find_atom_cases atoms r c nm with ⟨h1, hall⟩ | ⟨k, a, hk, ha, hm, _⟩
  · rw [h1]; simp; exact hall
  · rw [hk]
    have hmem : a ∈ atoms := List.getElem?_mem ha
    have hk0 : ¬ ((k : Int) < 0) := by omega
    simp only [hk0, if_false]
    constructor
    · intro h; cases h
    · intro h; exact absurd hm (h a hmem)

theorem found_atom_eq_some (atoms : List atom_record) (r : Int) (c : Char)
    (nm : String) (a : atom_record) (h : found_atom atoms r c nm = some a) :
    ∃ k : Nat, find_atom atoms r c nm = (k : Int) ∧ atoms[k]? = some a ∧
      key_matches r c nm a ∧
      ∀ j b, j < k → atoms[j]? = some b → ¬ key_matches r c nm b := by
  unfold found_atom found_at at h
  rcases find_atom_cases atoms r c nm with ⟨h1, _⟩ | ⟨k, b, hk, hb, hm, hf⟩
  · rw [h1] at h; simp at h
  · rw [hk] at h
    have hk0 : ¬ ((k : Int) < 0) := by omega
    simp only [hk0, if_false, atom_at, Int.toNat_ofNat, Option.some.injEq] at h
    have hlt : k < atoms.length := by
      rcases List.getElem?_eq_some_iff.mp hb with ⟨hlt, _⟩
      exact hlt
    have hab : b = a := by
      rw [List.getD_eq_getElem?_getD, hb] at h
      simpa using h
    subst hab
    exact ⟨k, hk, hb, hm, hf⟩

/-- The atom returned by `find_atom` is the first record of the list that
matches the three keys. -/
theorem found_atom_eq_find (atoms : List atom_record) (r : Int) (c : Char)
    (nm : String) :
    found_atom atoms r c nm
      = atoms.find? (fun a => decide (key_matches r c nm a)) := by
  cases hf : atoms.find? (fun a => decide (key_matches r c nm a)) with
  | none =>
    rw [found_atom_none_iff]
    intro a ha
    have := List.find?_eq_none.mp hf a ha
    simpa using this
  | some a =>
    have hm : key_matches r c nm a := by
      have := List.find?_some hf
      simpa using this
    have hmem : a ∈ atoms := List.mem_of_find?_eq_some hf
    cases hfa : found_atom atoms r c nm with
    | none =>
      exact absurd hm ((found_atom_none_iff atoms r c nm).mp hfa a hmem)
    | some b =>
      rcases found_atom_eq_some atoms r c nm b hfa with ⟨k, _, hb, hmb, hfirst⟩
      rcases List.find?_eq_some.mp hf with ⟨_, as, bs, hsplit, has⟩
      -- the first match of `find?` sits at index `as.length`
      have hidx : atoms[as.length]? = some a := by
        rw [hsplit, List.getElem?_append_right (Nat.le_refl _)]; simp
      rcases Nat.lt_trichotomy k as.length with hlt | heq | hgt
      · have hbas : b ∈ as := by
          have : as[k]? = some b := by
            rw [hsplit, List.getElem?_append_left hlt] at hb; exact hb
          exact List.getElem?_mem this
        have := has b hbas
        simp at this
        exact absurd hmb this
      · rw [heq, hidx] at hb
        exact hb.symm ▸ rfl
      · exact absurd hm (hfirst as.length a hgt hidx)

/-! ## Properties of `dihedral_angle` -/

/-- The function `dihedral_angle` written with the named intermediate
quantities. -/
theorem dihedral_angle_eq (a1 a2 a3 a4 : atom_record) :
    dihedral_angle a1 a2 a3 a4 =
      if cross_prod_of a1 a2 a3 a4 > 1e-8 then
        if sign_test a1 a2 a3 a4 < 0 then
          -Real.arccos (acos_argument a1 a2 a3 a4) * 180 / PI
        else
          Real.arccos (acos_argument a1 a2 a3 a4) * 180 / PI
      else 0 := rfl

/-- The scalar triple product of the sign statement is the negated dot product
of the two normals. -/
theorem sign_test_eq (a1 a2 a3 a4 : atom_record) :
    sign_test a1 a2 a3 a4
      = -dot_product (normal1 a1 a2 a3) (normal2 a2 a3 a4) := by
  simp only [sign_test, normal1, normal2, dot_product, cross_product, bond]
  ring

theorem magnitude_nonneg (v : Vec3) : 0 ≤ magnitude v := Real.sqrt_nonneg _

theorem self_dot_nonneg (v : Vec3) : 0 ≤ v.c0 * v.c0 + v.c1 * v.c1 + v.c2 * v.c2 := by
  nlinarith [mul_self_nonneg v.c0, mul_self_nonneg v.c1, mul_self_nonneg v.c2]

/-- Cauchy-Schwarz for three-component vectors. -/
theorem abs_dot_le (u v : Vec3) :
    |dot_product u v| ≤ magnitude u * magnitude v := by
  unfold magnitude
  rw [← Real.sqrt_mul (self_dot_nonneg u)]
  apply Real.abs_le_sqrt
  unfold dot_product
  nlinarith [sq_nonneg (u.c1 * v.c2 - u.c2 * v.c1),
    sq_nonneg (u.c2 * v.c0 - u.c0 * v.c2), sq_nonneg (u.c0 * v.c1 - u.c1 * v.c0)]

theorem PI_pos : 0 < PI := Real.pi_pos

theorem cross_prod_of_nonneg (a1 a2 a3 a4 : atom_record) :
    0 ≤ cross_prod_of a1 a2 a3 a4 :=
  mul_nonneg (magnitude_nonneg _) (magnitude_nonneg _)

/-- Clamping does not increase the absolute value, so the clamped dot product
is bounded by the product of the magnitudes. -/
theorem abs_clamped_dot_le (a1 a2 a3 a4 : atom_record) :
    |clamped_dot a1 a2 a3 a4| ≤ cross_prod_of a1 a2 a3 a4 := by
  have hcs := abs_dot_le (normal1 a1 a2 a3) (normal2 a2 a3 a4)
  have hcs2 := abs_le.mp hcs
  unfold cross_prod_of
  unfold clamped_dot
  simp only
  rw [abs_le]
  split_ifs with h1 h2 h3 <;> constructor <;> linarith [hcs2.1, hcs2.2]

/-- The sign of the clamped dot product is the sign of the dot product. -/
theorem clamped_dot_pos (a1 a2 a3 a4 : atom_record)
    (h : 0 < dot_product (normal1 a1 a2 a3) (normal2 a2 a3 a4)) :
    0 < clamped_dot a1 a2 a3 a4 := by
  unfold clamped_dot
  simp only
  split_ifs with h1 h2 h3 <;> linarith

theorem acos_argument_bounds (a1 a2 a3 a4 : atom_record)
    (h : cross_prod_of a1 a2 a3 a4 > 1e-8) :
    -1 ≤ acos_argument a1 a2 a3 a4 ∧ acos_argument a1 a2 a3 a4 ≤ 1 := by
  have hpos : 0 < cross_prod_of a1 a2 a3 a4 := lt_trans (by norm_num) h
  have hb := abs_le.mp (abs_clamped_dot_le a1 a2 a3 a4)
  unfold acos_argument
  constructor
  · rw [le_div_iff₀ hpos]; linarith [hb.1]
  · rw [div_le_one hpos]; exact hb.2

/-- In the branch where the angle is negated the arc cosine is below a right
angle. -/
theorem arccos_lt_of_sign_neg (a1 a2 a3 a4 : atom_record)
    (h : cross_prod_of a1 a2 a3 a4 > 1e-8) (hs : sign_test a1 a2 a3 a4 < 0) :
    Real.arccos (acos_argument a1 a2 a3 a4) < Real.pi / 2 := by
  have hpos : 0 < cross_prod_of a1 a2 a3 a4 := lt_trans (by norm_num) h
  rw [sign_test_eq] at hs
  have hd : 0 < dot_product (normal1 a1 a2 a3) (normal2 a2 a3 a4) := by linarith
  rw [Real.arccos_lt_pi_div_two]
  exact div_pos (clamped_dot_pos a1 a2 a3 a4 hd) hpos

theorem dihedral_angle_bounds (a1 a2 a3 a4 : atom_record) :
    -180 < dihedral_angle a1 a2 a3 a4 ∧ dihedral_angle a1 a2 a3 a4 ≤ 180 := by
  rw [dihedral_angle_eq]
  have hpi : 0 < PI := PI_pos
  have h0 := Real.arccos_nonneg (acos_argument a1 a2 a3 a4)
  have h1 := Real.arccos_le_pi (acos_argument a1 a2 a3 a4)
  split_ifs with hc hs
  · have h2 := arccos_lt_of_sign_neg a1 a2 a3 a4 hc hs
    have hPI : PI = Real.pi := rfl
    constructor
    · rw [lt_div_iff₀ hpi, hPI]; nlinarith
    · rw [div_le_iff₀ hpi, hPI]; nlinarith
  · have hPI : PI = Real.pi := rfl
    constructor
    · rw [lt_div_iff₀ hpi, hPI]; nlinarith
    · rw [div_le_iff₀ hpi, hPI]; nlinarith
  · constructor <;> norm_num

theorem dihedral_angle_ne_sentinel (a1 a2 a3 a4 : atom_record) :
    dihedral_angle a1 a2 a3 a4 ≠ 999 := by
  have h := (dihedral_angle_bounds a1 a2 a3 a4).2
  intro he
  rw [he] at h
  norm_num at h

/-! ## The dihedral of known conformations -/

theorem atan2_zero_neg (x : ℝ) (hx : x < 0) : atan2 0 x = Real.pi := by
  unfold atan2
  have h : (⟨x, 0⟩ : ℂ) = ((x : ℝ) : ℂ) := by
    apply Complex.ext <;> simp
  rw [h, Complex.arg_ofReal_of_neg hx]

/-- C1, at the trans conformation `(2,0,0), (0,0,0), (0,0,2), (-2,0,2)`: the
positions are non-degenerate and the analytically expected dihedral is 180
degrees, but `dihedral_angle` returns `acos(-1/16) 180/π` (about 93.6), which
is not 180: the dot product -16 of the normals is clamped to -1 before it is
divided by the product 16 of their magnitudes. -/
theorem dihedral_angle_trans_not_180 :
    cross_prod_of trans1 trans2 trans3 trans4 > 1e-8 ∧
    expected_dihedral trans1 trans2 trans3 trans4 = 180 ∧
    dihedral_angle trans1 trans2 trans3 trans4
      = Real.arccos (-1 / 16) * 180 / Real.pi ∧
    dihedral_angle trans1 trans2 trans3 trans4 ≠ 180 := by
  have hc : cross_prod_of trans1 trans2 trans3 trans4 = 16 := by
    simp only [cross_prod_of, normal1, normal2, magnitude, cross_product, bond,
      trans1, trans2, trans3, trans4, atom_at_position]
    norm_num
  have hd : clamped_dot trans1 trans2 trans3 trans4 = -1 := by
    simp only [clamped_dot, normal1, normal2, dot_product, cross_product, bond,
      trans1, trans2, trans3, trans4, atom_at_position]
    norm_num
  have hs : ¬ sign_test trans1 trans2 trans3 trans4 < 0 := by
    simp only [sign_test, normal1, dot_product, cross_product, bond,
      trans1, trans2, trans3, trans4, atom_at_position]
    norm_num
  have hval : dihedral_angle trans1 trans2 trans3 trans4
      = Real.arccos (-1 / 16) * 180 / Real.pi := by
    rw [dihedral_angle_eq, if_pos (by rw [hc]; norm_num), if_neg hs]
    unfold acos_argument
    rw [hc, hd]; rfl
  refine ⟨by rw [hc]; norm_num, ?_, hval, ?_⟩
  · have hx : dot_product (cross_product (bond trans1 trans2) (bond trans2 trans3))
        (cross_product (bond trans2 trans3) (bond trans3 trans4)) = -16 := by
      simp only [dot_product, cross_product, bond,
        trans1, trans2, trans3, trans4, atom_at_position]
      norm_num
    have hy : dot_product (bond trans1 trans2)
        (cross_product (bond trans2 trans3) (bond trans3 trans4)) = 0 := by
      simp only [dot_product, cross_product, bond,
        trans1, trans2, trans3, trans4, atom_at_position]
      norm_num
    unfold expected_dihedral
    rw [hx, hy, mul_zero, atan2_zero_neg (-16) (by norm_num)]
    field_simp
  · rw [hval]
    intro h
    have hpi : Real.arccos (-1 / 16) = Real.pi := by
      have hpos := Real.pi_pos
      field_simp at h
      linarith
    have := Real.arccos_eq_pi.mp hpi
    norm_num at this

/-! ## The contract of `find_atom` -/

/-- C5: `find_atom` returns -1 exactly when no record of the array has the
queried residue number, chain identifier and (exactly equal) name; otherwise
it returns an index `i` with `0 <= i < n_atoms` whose record matches the three
keys, and no record at a smaller index matches them. -/
theorem find_atom_first_match (atoms : List atom_record) (res_num : Int)
    (chain : Char) (atom_name : String) :
    (find_atom atoms res_num chain atom_name = -1 ↔
      ∀ a ∈ atoms, ¬ (a.res_number = res_num ∧ a.chain_id = chain ∧
        a.name = atom_name)) ∧
    (find_atom atoms res_num chain atom_name = -1 ∨
      ∃ (i : Nat) (a : atom_record),
        find_atom atoms res_num chain atom_name = (i : Int) ∧
        i < atoms.length ∧ atoms[i]? = some a ∧
        (a.res_number = res_num ∧ a.chain_id = chain ∧ a.name = atom_name) ∧
        ∀ (j : Nat) (b : atom_record), j < i → atoms[j]? = some b →
          ¬ (b.res_number = res_num ∧ b.chain_id = chain ∧
            b.name = atom_name)) := by
  rcases find_atom_cases atoms res_num chain atom_name with
    ⟨h1, hall⟩ | ⟨k, a, hk, ha, hm, hf⟩
  · exact ⟨⟨fun _ => hall, fun _ => h1⟩, Or.inl h1⟩
  · have hlt : k < atoms.length := by
      rcases List.getElem?_eq_some_iff.mp ha with ⟨hlt, _⟩
      exact hlt
    refine ⟨⟨fun h => ?_, fun h => ?_⟩, Or.inr ⟨k, a, hk, hlt, ha, hm, hf⟩⟩
    · rw [hk] at h; omega
    · exact absurd hm (h a (List.getElem?_mem ha))

/-! ## The rows of `compute_and_write_angles` -/

theorem found_at_neg (atoms : List atom_record) (i : Int) (h : i < 0) :
    found_at atoms i = none := by
  unfold found_at; rw [if_pos h]

theorem found_at_nonneg (atoms : List atom_record) (i : Int) (h : i ≥ 0) :
    found_at atoms i = some (atom_at atoms i) := by
  unfold found_at; rw [if_neg (by omega)]

/-- A guarded angle computation of the loop body, in terms of the lookup
results. -/
theorem guarded_angle (atoms : List atom_record) (i1 i2 i3 i4 : Int) :
    (if i1 ≥ 0 ∧ i2 ≥ 0 ∧ i3 ≥ 0 ∧ i4 ≥ 0 then
        dihedral_angle (atom_at atoms i1) (atom_at atoms i2)
          (atom_at atoms i3) (atom_at atoms i4)
      else 999)
      = angle_of (found_at atoms i1) (found_at atoms i2)
          (found_at atoms i3) (found_at atoms i4) := by
  by_cases h1 : i1 ≥ 0
  · by_cases h2 : i2 ≥ 0
    · by_cases h3 : i3 ≥ 0
      · by_cases h4 : i4 ≥ 0
        · rw [if_pos ⟨h1, h2, h3, h4⟩, found_at_nonneg _ _ h1,
            found_at_nonneg _ _ h2, found_at_nonneg _ _ h3, found_at_nonneg _ _ h4]
          rfl
        · rw [if_neg (fun h => h4 h.2.2.2), found_at_neg _ i4 (by omega)]
          unfold angle_of; split <;> simp_all
      · rw [if_neg (fun h => h3 h.2.2.1), found_at_neg _ i3 (by omega)]
        unfold angle_of; split <;> simp_all
    · rw [if_neg (fun h => h2 h.2.1), found_at_neg _ i2 (by omega)]
      unfold angle_of; split <;> simp_all
  · rw [if_neg (fun h => h1 h.1), found_at_neg _ i1 (by omega)]
    unfold angle_of; split <;> simp_all

/-- The fallback `if (idx < 0) idx = find_atom(...)` in terms of the lookup
results. -/
theorem found_at_fallback (atoms : List atom_record) (i j : Int) :
    found_at atoms (if i < 0 then j else i)
      = first_found (found_at atoms i) (found_at atoms j) := by
  by_cases h : i < 0
  · rw [if_pos h, found_at_neg _ i h]; rfl
  · rw [if_neg h, found_at_nonneg _ i (by omega)]; rfl

/-- The nested guards of the chi computation, in terms of the lookup
results. -/
theorem guarded_chi (atoms : List atom_record) (i1 i2 i3 i4 : Int) :
    (if i1 ≥ 0 ∧ i2 ≥ 0 ∧ i3 ≥ 0 then
        if i4 ≥ 0 then
          dihedral_angle (atom_at atoms i1) (atom_at atoms i2)
            (atom_at atoms i3) (atom_at atoms i4)
        else 999
      else 999)
      = angle_of (found_at atoms i1) (found_at atoms i2)
          (found_at atoms i3) (found_at atoms i4) := by
  rw [← guarded_angle]
  by_cases h4 : i4 ≥ 0
  · by_cases h : i1 ≥ 0 ∧ i2 ≥ 0 ∧ i3 ≥ 0
    · rw [if_pos h, if_pos h4, if_pos ⟨h.1, h.2.1, h.2.2, h4⟩]
    · have h5 : ¬ (i1 ≥ 0 ∧ i2 ≥ 0 ∧ i3 ≥ 0 ∧ i4 ≥ 0) :=
        fun h2 => h ⟨h2.1, h2.2.1, h2.2.2.1⟩
      rw [if_neg h, if_neg h5]
  · have h5 : ¬ (i1 ≥ 0 ∧ i2 ≥ 0 ∧ i3 ≥ 0 ∧ i4 ≥ 0) := fun h2 => h4 h2.2.2.2
    rw [if_neg h4, if_neg h5]
    split_ifs <;> rfl

theorem residue_row_res_num (atoms : List atom_record) (r : Int) (c : Char) :
    (residue_row atoms r c).res_num = r := rfl

theorem residue_row_alpha (atoms : List atom_record) (r : Int) (c : Char) :
    (residue_row atoms r c).alpha
      = angle_of (found_atom atoms (r - 1) c "P") (found_atom atoms r c "O5'")
          (found_atom atoms r c "C5'") (found_atom atoms r c "C4'") :=
  guarded_angle atoms _ _ _ _

theorem residue_row_beta (atoms : List atom_record) (r : Int) (c : Char) :
    (residue_row atoms r c).beta
      = angle_of (found_atom atoms r c "O5'") (found_atom atoms r c "C5'")
          (found_atom atoms r c "C4'") (found_atom atoms r c "C3'") :=
  guarded_angle atoms _ _ _ _

theorem residue_row_gamma (atoms : List atom_record) (r : Int) (c : Char) :
    (residue_row atoms r c).gamma
      = angle_of (found_atom atoms r c "C5'") (found_atom atoms r c "C4'")
          (found_atom atoms r c "C3'") (found_atom atoms r c "O3'") :=
  guarded_angle atoms _ _ _ _

theorem residue_row_delta (atoms : List atom_record) (r : Int) (c : Char) :
    (residue_row atoms r c).delta
      = angle_of (found_atom atoms r c "C4'") (found_atom atoms r c "C3'")
          (found_atom atoms r c "O3'") (found_atom atoms (r + 1) c "P") :=
  guarded_angle atoms _ _ _ _

theorem residue_row_epsilon (atoms : List atom_record) (r : Int) (c : Char) :
    (residue_row atoms r c).epsilon
      = angle_of (found_atom atoms r c "C3'") (found_atom atoms r c "O3'")
          (found_atom atoms (r + 1) c "P") (found_atom atoms (r + 1) c "O5'") :=
  guarded_angle atoms _ _ _ _

theorem residue_row_zeta (atoms : List atom_record) (r : Int) (c : Char) :
    (residue_row atoms r c).zeta
      = angle_of (found_atom atoms r c "O3'") (found_atom atoms (r + 1) c "P")
          (found_atom atoms (r + 1) c "O5'") (found_atom atoms (r + 1) c "C5'") :=
  guarded_angle atoms _ _ _ _

theorem residue_row_chi (atoms : List atom_record) (r : Int) (c : Char) :
    (residue_row atoms r c).chi
      = angle_of (found_atom atoms r c "O4'") (found_atom atoms r c "C1'")
          (first_found (found_atom atoms r c "N9") (found_atom atoms r c "N1"))
          (first_found (found_atom atoms r c "C8") (found_atom atoms r c "C6")) := by
  unfold found_atom
  rw [← found_at_fallback, ← found_at_fallback, ← guarded_chi]
  rfl

/-- Every row produced by the residue loop is the row of the loop body for the
residue number and chain identifier of one of the visited atoms. -/
theorem residue_loop_mem (atoms : List atom_record) :
    ∀ (l : List atom_record) (prev : Int) (row : TorsionRow),
      row ∈ residue_loop atoms l prev →
      ∃ a ∈ l, row = residue_row atoms a.res_number a.chain_id := by
  intro l
  induction l with
  | nil => intro prev row h; simp [residue_loop] at h
  | cons a rest ih =>
    intro prev row h
    simp only [residue_loop] at h
    split_ifs at h with hne
    · rcases List.mem_cons.mp h with h | h
      · exact ⟨a, List.mem_cons_self _ _, h⟩
      · rcases ih _ row h with ⟨b, hb, hrow⟩
        exact ⟨b, List.mem_cons_of_mem _ hb, hrow⟩
    · rcases ih _ row h with ⟨b, hb, hrow⟩
      exact ⟨b, List.mem_cons_of_mem _ hb, hrow⟩

theorem compute_and_write_angles_mem (atoms : List atom_record)
    (row : TorsionRow) (h : row ∈ compute_and_write_angles atoms) :
    ∃ a ∈ atoms, row = residue_row atoms a.res_number a.chain_id :=
  residue_loop_mem atoms atoms (-999) row h

theorem sample_chain_rows :
    compute_and_write_angles sample_chain
      = [residue_row sample_chain 1 'A', residue_row sample_chain 2 'A'] := by
  simp [compute_and_write_angles, residue_loop, sample_chain, named_atom]

/-- C2: every row that `compute_and_write_angles` emits is emitted for the
residue number `r` and chain identifier `c` of an atom of the list, and each
of its six backbone angles is the dihedral of the four atoms that `find_atom`
returns for its tuple (alpha: P of `r-1`, O5', C5', C4' of `r`; beta: O5',
C5', C4', C3'; gamma: C5', C4', C3', O3'; delta: C4', C3', O3' of `r`, P of
`r+1`; epsilon: C3', O3' of `r`, P, O5' of `r+1`; zeta: O3' of `r`, P, O5',
C5' of `r+1`; all in chain `c`) when the four lookups succeed, and the
sentinel 999.0 otherwise. -/
theorem backbone_angles_of_row (atoms : List atom_record) (row : TorsionRow)
    (h : row ∈ compute_and_write_angles atoms) :
    ∃ a ∈ atoms, row.res_num = a.res_number ∧
      row.alpha = angle_of
        (found_atom atoms (a.res_number - 1) a.chain_id "P")
        (found_atom atoms a.res_number a.chain_id "O5'")
        (found_atom atoms a.res_number a.chain_id "C5'")
        (found_atom atoms a.res_number a.chain_id "C4'") ∧
      row.beta = angle_of
        (found_atom atoms a.res_number a.chain_id "O5'")
        (found_atom atoms a.res_number a.chain_id "C5'")
        (found_atom atoms a.res_number a.chain_id "C4'")
        (found_atom atoms a.res_number a.chain_id "C3'") ∧
      row.gamma = angle_of
        (found_atom atoms a.res_number a.chain_id "C5'")
        (found_atom atoms a.res_number a.chain_id "C4'")
        (found_atom atoms a.res_number a.chain_id "C3'")
        (found_atom atoms a.res_number a.chain_id "O3'") ∧
      row.delta = angle_of
        (found_atom atoms a.res_number a.chain_id "C4'")
        (found_atom atoms a.res_number a.chain_id "C3'")
        (found_atom atoms a.res_number a.chain_id "O3'")
        (found_atom atoms (a.res_number + 1) a.chain_id "P") ∧
      row.epsilon = angle_of
        (found_atom atoms a.res_number a.chain_id "C3'")
        (found_atom atoms a.res_number a.chain_id "O3'")
        (found_atom atoms (a.res_number + 1) a.chain_id "P")
        (found_atom atoms (a.res_number + 1) a.chain_id "O5'") ∧
      row.zeta = angle_of
        (found_atom atoms a.res_number a.chain_id "O3'")
        (found_atom atoms (a.res_number + 1) a.chain_id "P")
        (found_atom atoms (a.res_number + 1) a.chain_id "O5'")
        (found_atom atoms (a.res_number + 1) a.chain_id "C5'") := by
  rcases compute_and_write_angles_mem atoms row h with ⟨a, ha, rfl⟩
  exact ⟨a, ha, rfl, residue_row_alpha _ _ _, residue_row_beta _ _ _,
    residue_row_gamma _ _ _, residue_row_delta _ _ _, residue_row_epsilon _ _ _,
    residue_row_zeta _ _ _⟩

/-- The value of a named angle is the sentinel exactly when one of its four
lookups found nothing. -/
theorem angle_of_eq_sentinel_iff (o1 o2 o3 o4 : Option atom_record) :
    angle_of o1 o2 o3 o4 = 999 ↔ (o1 = none ∨ o2 = none ∨ o3 = none ∨ o4 = none) := by
  cases o1 with
  | none => simp [angle_of]
  | some a1 =>
    cases o2 with
    | none => simp [angle_of]
    | some a2 =>
      cases o3 with
      | none => simp [angle_of]
      | some a3 =>
        cases o4 with
        | none => simp [angle_of]
        | some a4 =>
          simp only [angle_of, reduceCtorEq, or_self, iff_false]
          exact dihedral_angle_ne_sentinel a1 a2 a3 a4

theorem first_found_eq_none_iff (o1 o2 : Option atom_record) :
    first_found o1 o2 = none ↔ (o1 = none ∧ o2 = none) := by
  cases o1 <;> simp [first_found]

/-- C3: every emitted row is emitted for the residue number `r` and chain `c`
of an atom of the list; with `N` the atom found for N9 of `r`, or else for N1,
and `C` the atom found for C8 of `r`, or else for C6, its chi is the dihedral
of O4', C1', `N`, `C` when all four are found and 999.0 otherwise. So chi
differs from 999.0 both for a purine residue (O4', C1', N9, C8 found) and for
a pyrimidine residue (O4', C1', N1, C6 found, N9 and C8 not found). -/
theorem chi_of_row (atoms : List atom_record) (row : TorsionRow)
    (h : row ∈ compute_and_write_angles atoms) :
    ∃ a ∈ atoms, row.res_num = a.res_number ∧
      row.chi = angle_of
        (found_atom atoms a.res_number a.chain_id "O4'")
        (found_atom atoms a.res_number a.chain_id "C1'")
        (first_found (found_atom atoms a.res_number a.chain_id "N9")
          (found_atom atoms a.res_number a.chain_id "N1"))
        (first_found (found_atom atoms a.res_number a.chain_id "C8")
          (found_atom atoms a.res_number a.chain_id "C6")) ∧
      ((found_atom atoms a.res_number a.chain_id "O4'").isSome ∧
        (found_atom atoms a.res_number a.chain_id "C1'").isSome ∧
        (found_atom atoms a.res_number a.chain_id "N9").isSome ∧
        (found_atom atoms a.res_number a.chain_id "C8").isSome →
        row.chi ≠ 999) ∧
      ((found_atom atoms a.res_number a.chain_id "O4'").isSome ∧
        (found_atom atoms a.res_number a.chain_id "C1'").isSome ∧
        (found_atom atoms a.res_number a.chain_id "N1").isSome ∧
        (found_atom atoms a.res_number a.chain_id "C6").isSome ∧
        found_atom atoms a.res_number a.chain_id "N9" = none ∧
        found_atom atoms a.res_number a.chain_id "C8" = none →
        row.chi ≠ 999) := by
  rcases compute_and_write_angles_mem atoms row h with ⟨a, ha, rfl⟩
  refine ⟨a, ha, rfl, residue_row_chi _ _ _, ?_, ?_⟩
  · rintro ⟨h1, h2, h3, h4⟩
    rw [residue_row_chi, Ne, angle_of_eq_sentinel_iff, first_found_eq_none_iff,
      first_found_eq_none_iff]
    rintro (h | h | h | h)
    · rw [h] at h1; simp at h1
    · rw [h] at h2; simp at h2
    · rw [h.1] at h3; simp at h3
    · rw [h.1] at h4; simp at h4
  · rintro ⟨h1, h2, h3, h4, _, _⟩
    rw [residue_row_chi, Ne, angle_of_eq_sentinel_iff, first_found_eq_none_iff,
      first_found_eq_none_iff]
    rintro (h | h | h | h)
    · rw [h] at h1; simp at h1
    · rw [h] at h2; simp at h2
    · rw [h.2] at h3; simp at h3
    · rw [h.2] at h4; simp at h4

theorem sample_chain_row1_mem :
    residue_row sample_chain 1 'A' ∈ compute_and_write_angles sample_chain := by
  rw [sample_chain_rows]; exact List.mem_cons_self _ _

theorem sample_chain_row2_mem :
    residue_row sample_chain 2 'A' ∈ compute_and_write_angles sample_chain := by
  rw [sample_chain_rows]; exact List.mem_cons_of_mem _ (List.mem_cons_self _ _)

/-- The row of residue 1 of the sample chain satisfies C2. -/
theorem backbone_angles_of_row_witness :
    residue_row sample_chain 1 'A' ∈ compute_and_write_angles sample_chain ∧
    ∃ a ∈ sample_chain, (residue_row sample_chain 1 'A').res_num = a.res_number ∧
      (residue_row sample_chain 1 'A').beta = angle_of
        (found_atom sample_chain a.res_number a.chain_id "O5'")
        (found_atom sample_chain a.res_number a.chain_id "C5'")
        (found_atom sample_chain a.res_number a.chain_id "C4'")
        (found_atom sample_chain a.res_number a.chain_id "C3'") :=
  ⟨sample_chain_row1_mem,
    (backbone_angles_of_row sample_chain _ sample_chain_row1_mem).imp
      (fun _ h => ⟨h.1, h.2.1, h.2.2.2.1⟩)⟩

/-- The pyrimidine row of the sample chain has a chi different from 999.0, by
C3. -/
theorem chi_of_row_witness :
    residue_row sample_chain 2 'A' ∈ compute_and_write_angles sample_chain ∧
    (residue_row sample_chain 2 'A').chi ≠ 999 := by
  refine ⟨sample_chain_row2_mem, ?_⟩
  obtain ⟨a, ha, hres, _, _, hpyr⟩ :=
    chi_of_row sample_chain _ sample_chain_row2_mem
  have hr : a.res_number = 2 := hres.symm
  have hc : a.chain_id = 'A' := by
    simp only [sample_chain, List.mem_cons, List.mem_singleton, List.not_mem_nil,
      or_false] at ha
    rcases ha with h | h | h | h | h | h | h | h | h | h | h | h | h | h | h | h |
      h | h | h | h <;> rw [h] <;> rfl
  rw [hr, hc] at hpyr
  exact hpyr ⟨by decide, by decide, by decide, by decide,
    Option.isNone_iff_eq_none.mp (by decide), Option.isNone_iff_eq_none.mp (by decide)⟩

/-- C4: every emitted row is the row of the loop body for the residue number
and chain of an atom of the list, and in such a row (a) each of the seven
angles is exactly 999.0 if and only if one of the atoms its tuple requires is
not found by `find_atom` (for chi: O4', C1', N9-or-N1, C8-or-C6), and (b) each
angle is determined by the lookup results of its own tuple: in any other atom
list that gives the same results for these lookups the angle has the same
value, whatever happens to the other atoms. -/
theorem sentinel_iff_missing (atoms : List atom_record) :
    (∀ row ∈ compute_and_write_angles atoms,
      ∃ a ∈ atoms, row = residue_row atoms a.res_number a.chain_id) ∧
    ∀ (r : Int) (c : Char),
      (((residue_row atoms r c).alpha = 999 ↔
          (found_atom atoms (r - 1) c "P" = none ∨ found_atom atoms r c "O5'" = none ∨
            found_atom atoms r c "C5'" = none ∨ found_atom atoms r c "C4'" = none)) ∧
        ((residue_row atoms r c).beta = 999 ↔
          (found_atom atoms r c "O5'" = none ∨ found_atom atoms r c "C5'" = none ∨
            found_atom atoms r c "C4'" = none ∨ found_atom atoms r c "C3'" = none)) ∧
        ((residue_row atoms r c).gamma = 999 ↔
          (found_atom atoms r c "C5'" = none ∨ found_atom atoms r c "C4'" = none ∨
            found_atom atoms r c "C3'" = none ∨ found_atom atoms r c "O3'" = none)) ∧
        ((residue_row atoms r c).delta = 999 ↔
          (found_atom atoms r c "C4'" = none ∨ found_atom atoms r c "C3'" = none ∨
            found_atom atoms r c "O3'" = none ∨ found_atom atoms (r + 1) c "P" = none)) ∧
        ((residue_row atoms r c).epsilon = 999 ↔
          (found_atom atoms r c "C3'" = none ∨ found_atom atoms r c "O3'" = none ∨
            found_atom atoms (r + 1) c "P" = none ∨
            found_atom atoms (r + 1) c "O5'" = none)) ∧
        ((residue_row atoms r c).zeta = 999 ↔
          (found_atom atoms r c "O3'" = none ∨ found_atom atoms (r + 1) c "P" = none ∨
            found_atom atoms (r + 1) c "O5'" = none ∨
            found_atom atoms (r + 1) c "C5'" = none)) ∧
        ((residue_row atoms r c).chi = 999 ↔
          (found_atom atoms r c "O4'" = none ∨ found_atom atoms r c "C1'" = none ∨
            (found_atom atoms r c "N9" = none ∧ found_atom atoms r c "N1" = none) ∨
            (found_atom atoms r c "C8" = none ∧ found_atom atoms r c "C6" = none)))) ∧
      ∀ atoms2 : List atom_record,
        ((found_atom atoms2 (r - 1) c "P" = found_atom atoms (r - 1) c "P" ∧
            found_atom atoms2 r c "O5'" = found_atom atoms r c "O5'" ∧
            found_atom atoms2 r c "C5'" = found_atom atoms r c "C5'" ∧
            found_atom atoms2 r c "C4'" = found_atom atoms r c "C4'" →
          (residue_row atoms2 r c).alpha = (residue_row atoms r c).alpha) ∧
        (found_atom atoms2 r c "O5'" = found_atom atoms r c "O5'" ∧
            found_atom atoms2 r c "C5'" = found_atom atoms r c "C5'" ∧
            found_atom atoms2 r c "C4'" = found_atom atoms r c "C4'" ∧
            found_atom atoms2 r c "C3'" = found_atom atoms r c "C3'" →
          (residue_row atoms2 r c).beta = (residue_row atoms r c).beta) ∧
        (found_atom atoms2 r c "C5'" = found_atom atoms r c "C5'" ∧
            found_atom atoms2 r c "C4'" = found_atom atoms r c "C4'" ∧
            found_atom atoms2 r c "C3'" = found_atom atoms r c "C3'" ∧
            found_atom atoms2 r c "O3'" = found_atom atoms r c "O3'" →
          (residue_row atoms2 r c).gamma = (residue_row atoms r c).gamma) ∧
        (found_atom atoms2 r c "C4'" = found_atom atoms r c "C4'" ∧
            found_atom atoms2 r c "C3'" = found_atom atoms r c "C3'" ∧
            found_atom atoms2 r c "O3'" = found_atom atoms r c "O3'" ∧
            found_atom atoms2 (r + 1) c "P" = found_atom atoms (r + 1) c "P" →
          (residue_row atoms2 r c).delta = (residue_row atoms r c).delta) ∧
        (found_atom atoms2 r c "C3'" = found_atom atoms r c "C3'" ∧
            found_atom atoms2 r c "O3'" = found_atom atoms r c "O3'" ∧
            found_atom atoms2 (r + 1) c "P" = found_atom atoms (r + 1) c "P" ∧
            found_atom atoms2 (r + 1) c "O5'" = found_atom atoms (r + 1) c "O5'" →
          (residue_row atoms2 r c).epsilon = (residue_row atoms r c).epsilon) ∧
        (found_atom atoms2 r c "O3'" = found_atom atoms r c "O3'" ∧
            found_atom atoms2 (r + 1) c "P" = found_atom atoms (r + 1) c "P" ∧
            found_atom atoms2 (r + 1) c "O5'" = found_atom atoms (r + 1) c "O5'" ∧
            found_atom atoms2 (r + 1) c "C5'" = found_atom atoms (r + 1) c "C5'" →
          (residue_row atoms2 r c).zeta = (residue_row atoms r c).zeta) ∧
        (found_atom atoms2 r c "O4'" = found_atom atoms r c "O4'" ∧
            found_atom atoms2 r c "C1'" = found_atom atoms r c "C1'" ∧
            first_found (found_atom atoms2 r c "N9") (found_atom atoms2 r c "N1")
              = first_found (found_atom atoms r c "N9") (found_atom atoms r c "N1") ∧
            first_found (found_atom atoms2 r c "C8") (found_atom atoms2 r c "C6")
              = first_found (found_atom atoms r c "C8") (found_atom atoms r c "C6") →
          (residue_row atoms2 r c).chi = (residue_row atoms r c).chi)) := by
  refine ⟨fun row h => compute_and_write_angles_mem atoms row h, fun r c => ⟨?_, ?_⟩⟩
  · rw [residue_row_alpha, residue_row_beta, residue_row_gamma, residue_row_delta,
      residue_row_epsilon, residue_row_zeta, residue_row_chi]
    simp only [angle_of_eq_sentinel_iff, first_found_eq_none_iff, and_self]
  · intro atoms2
    simp only [residue_row_alpha, residue_row_beta, residue_row_gamma,
      residue_row_delta, residue_row_epsilon, residue_row_zeta, residue_row_chi]
    refine ⟨?_, ?_, ?_, ?_, ?_, ?_, ?_⟩ <;>
    · rintro ⟨h1, h2, h3, h4⟩
      rw [h1, h2, h3, h4]

/-! ## Degenerate geometry and the range of the result -/

theorem magnitude_zero_vec : magnitude ⟨0, 0, 0⟩ = 0 := by
  simp [magnitude]

theorem normal1_of_on_one_line (a1 a2 a3 a4 : atom_record)
    (h : on_one_line a1 a2 a3 a4) : normal1 a1 a2 a3 = ⟨0, 0, 0⟩ := by
  obtain ⟨px, py, pz, dx, dy, dz, t1, t2, t3, t4, ⟨h1x, h1y, h1z⟩,
    ⟨h2x, h2y, h2z⟩, ⟨h3x, h3y, h3z⟩, _⟩ := h
  simp only [normal1, cross_product, bond, h1x, h1y, h1z, h2x, h2y, h2z, h3x, h3y,
    h3z, Vec3.mk.injEq]
  refine ⟨by ring, by ring, by ring⟩

/-- C9, with the arithmetic of `dihedral_angle` read as exact real arithmetic:
for four atoms on one line, and whenever the product of the magnitudes of the
two normals is at most 1e-8, the guard of the branch that divides and calls
`acos` is false and `dihedral_angle` returns exactly 0. -/
theorem dihedral_angle_degenerate (a1 a2 a3 a4 : atom_record)
    (h : on_one_line a1 a2 a3 a4 ∨ cross_prod_of a1 a2 a3 a4 ≤ 1e-8) :
    ¬ (cross_prod_of a1 a2 a3 a4 > 1e-8) ∧ dihedral_angle a1 a2 a3 a4 = 0 := by
  have hle : cross_prod_of a1 a2 a3 a4 ≤ 1e-8 := by
    rcases h with h | h
    · unfold cross_prod_of
      rw [normal1_of_on_one_line a1 a2 a3 a4 h, magnitude_zero_vec, zero_mul]
      norm_num
    · exact h
  have hg : ¬ (cross_prod_of a1 a2 a3 a4 > 1e-8) := not_lt.mpr hle
  exact ⟨hg, by rw [dihedral_angle_eq, if_neg hg]⟩

/-- Four atoms on the x axis give exactly 0 in exact arithmetic, by C9. -/
theorem dihedral_angle_degenerate_witness :
    on_one_line line1 line2 line3 line4 ∧
    dihedral_angle line1 line2 line3 line4 = 0 :=
  have h : on_one_line line1 line2 line3 line4 :=
    ⟨0, 0, 0, 1, 0, 0, 0, 1, 2, 3, by
      simp [line1, line2, line3, line4, atom_at_position]⟩
  ⟨h, (dihedral_angle_degenerate line1 line2 line3 line4 (Or.inl h)).2⟩

/-- C10: the value `d` returned by `dihedral_angle` satisfies
`-180 < d <= 180`; whenever the `acos` branch is taken, the value passed to
`acos` lies in `[-1, 1]`; and `d` is never the sentinel 999.0. -/
theorem dihedral_angle_range (a1 a2 a3 a4 : atom_record) :
    -180 < dihedral_angle a1 a2 a3 a4 ∧ dihedral_angle a1 a2 a3 a4 ≤ 180 ∧
    (cross_prod_of a1 a2 a3 a4 > 1e-8 →
      -1 ≤ acos_argument a1 a2 a3 a4 ∧ acos_argument a1 a2 a3 a4 ≤ 1) ∧
    dihedral_angle a1 a2 a3 a4 ≠ 999 :=
  ⟨(dihedral_angle_bounds a1 a2 a3 a4).1, (dihedral_angle_bounds a1 a2 a3 a4).2,
    acos_argument_bounds a1 a2 a3 a4, dihedral_angle_ne_sentinel a1 a2 a3 a4⟩

theorem right_cross_prod : cross_prod_of right1 right2 right3 right4 = 1 := by
  simp only [cross_prod_of, normal1, normal2, magnitude, cross_product, bond,
    right1, right2, right3, right4, atom_at_position]
  norm_num

theorem right_dihedral : dihedral_angle right1 right2 right3 right4 = 90 := by
  have hd : clamped_dot right1 right2 right3 right4 = 0 := by
    simp only [clamped_dot, normal1, normal2, dot_product, cross_product, bond,
      right1, right2, right3, right4, atom_at_position]
    norm_num
  have hs : ¬ sign_test right1 right2 right3 right4 < 0 := by
    simp only [sign_test, normal1, dot_product, cross_product, bond,
      right1, right2, right3, right4, atom_at_position]
    norm_num
  rw [dihedral_angle_eq, if_pos (by rw [right_cross_prod]; norm_num), if_neg hs]
  unfold acos_argument
  rw [hd, zero_div, Real.arccos_zero]
  have hpi : PI = Real.pi := rfl
  rw [hpi]
  have := Real.pi_pos
  field_simp
  ring

/-- The right-angle conformation takes the `acos` branch, and there the value
passed to `acos` lies in `[-1, 1]`, by C10. -/
theorem dihedral_angle_range_witness :
    cross_prod_of right1 right2 right3 right4 > 1e-8 ∧
    -1 ≤ acos_argument right1 right2 right3 right4 ∧
    acos_argument right1 right2 right3 right4 ≤ 1 :=
  have h : cross_prod_of right1 right2 right3 right4 > 1e-8 := by
    rw [right_cross_prod]; norm_num
  ⟨h, (dihedral_angle_range right1 right2 right3 right4).2.2.1 h⟩

/-! ## Reversal of the four atoms -/

theorem magnitude_normal1_reversed (a2 a3 a4 : atom_record) :
    magnitude (normal1 a4 a3 a2) = magnitude (normal2 a2 a3 a4) := by
  simp only [magnitude, normal1, normal2, cross_product, bond]
  congr 1; ring

theorem magnitude_normal2_reversed (a1 a2 a3 : atom_record) :
    magnitude (normal2 a3 a2 a1) = magnitude (normal1 a1 a2 a3) := by
  simp only [magnitude, normal1, normal2, cross_product, bond]
  congr 1; ring

theorem dot_normals_reversed (a1 a2 a3 a4 : atom_record) :
    dot_product (normal1 a4 a3 a2) (normal2 a3 a2 a1)
      = dot_product (normal1 a1 a2 a3) (normal2 a2 a3 a4) := by
  simp only [dot_product, normal1, normal2, cross_product, bond]
  ring

/-- C8, as the code has it when its arithmetic is read as exact real
arithmetic: reversing the order of the four atoms leaves the angle computed by
`dihedral_angle` unchanged. (With the rounding of the machine the sign test
can come out differently in the two orders, see `reversal_sign_in_binary32`.) -/
theorem dihedral_angle_reversed (a1 a2 a3 a4 : atom_record) :
    dihedral_angle a4 a3 a2 a1 = dihedral_angle a1 a2 a3 a4 := by
  have hc : cross_prod_of a4 a3 a2 a1 = cross_prod_of a1 a2 a3 a4 := by
    unfold cross_prod_of
    rw [magnitude_normal1_reversed a2 a3 a4, magnitude_normal2_reversed a1 a2 a3,
      mul_comm]
  have hd : clamped_dot a4 a3 a2 a1 = clamped_dot a1 a2 a3 a4 := by
    unfold clamped_dot
    rw [dot_normals_reversed]
  have hs : sign_test a4 a3 a2 a1 = sign_test a1 a2 a3 a4 := by
    rw [sign_test_eq, sign_test_eq, dot_normals_reversed]
  rw [dihedral_angle_eq, dihedral_angle_eq]
  unfold acos_argument
  rw [hc, hd, hs]

/-- C8 fails at the right-angle conformation `(1,0,0), (0,0,0), (0,0,1),
(0,1,1)`: the angle is 90 degrees, neither 0 nor 180, and the reversed order
gives 90 again, not -90. -/
theorem dihedral_angle_reversed_not_negated :
    dihedral_angle right1 right2 right3 right4 ≠ 0 ∧
    dihedral_angle right1 right2 right3 right4 ≠ 180 ∧
    dihedral_angle right4 right3 right2 right1
      ≠ -dihedral_angle right1 right2 right3 right4 := by
  have hrev : dihedral_angle right4 right3 right2 right1 = 90 := by
    have hc : cross_prod_of right4 right3 right2 right1 = 1 := by
      simp only [cross_prod_of, normal1, normal2, magnitude, cross_product, bond,
        right1, right2, right3, right4, atom_at_position]
      norm_num
    have hd : clamped_dot right4 right3 right2 right1 = 0 := by
      simp only [clamped_dot, normal1, normal2, dot_product, cross_product, bond,
        right1, right2, right3, right4, atom_at_position]
      norm_num
    have hs : ¬ sign_test right4 right3 right2 right1 < 0 := by
      simp only [sign_test, normal1, dot_product, cross_product, bond,
        right1, right2, right3, right4, atom_at_position]
      norm_num
    rw [dihedral_angle_eq, if_pos (by rw [hc]; norm_num), if_neg hs]
    unfold acos_argument
    rw [hd, zero_div, Real.arccos_zero]
    have hpi : PI = Real.pi := rfl
    rw [hpi]
    have := Real.pi_pos
    field_simp
    ring
  rw [hrev, right_dihedral]
  norm_num

/-! ## The order of clamping and division -/

theorem sqrt_sixteen : Real.sqrt 16 = 4 := by
  rw [show (16 : ℝ) = 4 ^ 2 by norm_num]
  exact Real.sqrt_sq (by norm_num)

/-- What the code computes when the `acos` branch is taken: the dot product
is clamped to `[-1, 1]` first and divided by the product of the magnitudes
afterwards. -/
theorem abs_dihedral_angle_eq (a1 a2 a3 a4 : atom_record)
    (h : cross_prod_of a1 a2 a3 a4 > 1e-8) :
    |dihedral_angle a1 a2 a3 a4|
      = Real.arccos (clamped_dot a1 a2 a3 a4 / cross_prod_of a1 a2 a3 a4)
          * 180 / Real.pi := by
  have hpi := Real.pi_pos
  have h0 := Real.arccos_nonneg (clamped_dot a1 a2 a3 a4 / cross_prod_of a1 a2 a3 a4)
  have hnn : 0 ≤ Real.arccos (clamped_dot a1 a2 a3 a4 / cross_prod_of a1 a2 a3 a4)
      * 180 / Real.pi := by positivity
  rw [dihedral_angle_eq, if_pos h]
  unfold acos_argument PI
  split_ifs
  · rw [neg_mul, neg_div, abs_neg, abs_of_nonneg hnn]
  · rw [abs_of_nonneg hnn]

/-- C7, at the cis conformation `(2,0,0), (0,0,0), (0,0,2), (2,0,2)`: the
normals have dot product 16 and magnitudes 4 and 4. The algorithm of the
specification clamps the quotient 16/16 and gives the unsigned angle 0 and
the dihedral 0; `dihedral_angle` clamps the dot product to 1 and then divides
by 16, returning `-acos(1/16) 180/π` (about -86.4). -/
theorem dihedral_angle_cis_clamps_before_dividing :
    cross_prod_of cis1 cis2 cis3 cis4 > 1e-8 ∧
    spec_unsigned_angle cis1 cis2 cis3 cis4 = 0 ∧
    spec_dihedral_angle cis1 cis2 cis3 cis4 = 0 ∧
    dihedral_angle cis1 cis2 cis3 cis4 = -Real.arccos (1 / 16) * 180 / Real.pi ∧
    |dihedral_angle cis1 cis2 cis3 cis4|
      ≠ spec_unsigned_angle cis1 cis2 cis3 cis4 * 180 / Real.pi ∧
    dihedral_angle cis1 cis2 cis3 cis4 ≠ spec_dihedral_angle cis1 cis2 cis3 cis4 := by
  have hm1 : magnitude (normal1 cis1 cis2 cis3) = 4 := by
    simp only [normal1, magnitude, cross_product, bond, cis1, cis2, cis3,
      atom_at_position]
    norm_num
    exact sqrt_sixteen
  have hm2 : magnitude (normal2 cis2 cis3 cis4) = 4 := by
    simp only [normal2, magnitude, cross_product, bond, cis2, cis3, cis4,
      atom_at_position]
    norm_num
    exact sqrt_sixteen
  have hdot : dot_product (normal1 cis1 cis2 cis3) (normal2 cis2 cis3 cis4) = 16 := by
    simp only [normal1, normal2, dot_product, cross_product, bond, cis1, cis2, cis3,
      cis4, atom_at_position]
    norm_num
  have hc : cross_prod_of cis1 cis2 cis3 cis4 = 16 := by
    unfold cross_prod_of; rw [hm1, hm2]; norm_num
  have hd : clamped_dot cis1 cis2 cis3 cis4 = 1 := by
    unfold clamped_dot; rw [hdot]; norm_num
  have hs : sign_test cis1 cis2 cis3 cis4 < 0 := by
    rw [sign_test_eq, hdot]; norm_num
  have hu : spec_unsigned_angle cis1 cis2 cis3 cis4 = 0 := by
    unfold spec_unsigned_angle clamp
    rw [hdot, hm1, hm2]
    norm_num
  have hspec : spec_dihedral_angle cis1 cis2 cis3 cis4 = 0 := by
    unfold spec_dihedral_angle
    simp only [hm1, hm2, hu]
    norm_num
  have hval : dihedral_angle cis1 cis2 cis3 cis4
      = -Real.arccos (1 / 16) * 180 / Real.pi := by
    rw [dihedral_angle_eq, if_pos (by rw [hc]; norm_num), if_pos hs]
    unfold acos_argument
    rw [hc, hd]; rfl
  have hpos : 0 < Real.arccos (1 / 16) := Real.arccos_pos.mpr (by norm_num)
  have hne : dihedral_angle cis1 cis2 cis3 cis4 ≠ 0 := by
    rw [hval]
    have hpi := Real.pi_pos
    have : 0 < Real.arccos (1 / 16) * 180 / Real.pi := by positivity
    intro h0
    rw [neg_mul, neg_div] at h0
    linarith
  refine ⟨by rw [hc]; norm_num, hu, hspec, hval, ?_, by rw [hspec]; exact hne⟩
  rw [hu]
  simp only [zero_mul, zero_div]
  exact fun h => hne (abs_eq_zero.mp h)

/-! ## Residue grouping -/

theorem splitBy_loop_acc {α : Type} (R : α → α → Bool) :
    ∀ (l : List α) (a : α) (g : List α) (gs : List (List α)),
      List.splitBy.loop R l a g gs = gs.reverse ++ List.splitBy.loop R l a g [] := by
  intro l
  induction l with
  | nil => intro a g gs; simp [List.splitBy.loop]
  | cons b l ih =>
    intro a g gs
    simp only [List.splitBy.loop]
    cases R a b with
    | true => exact ih b (a :: g) gs
    | false =>
      simp only
      rw [ih b [] ((a :: g).reverse :: gs), ih b [] [(a :: g).reverse]]
      simp

theorem splitBy_loop_group {α : Type} (R : α → α → Bool) :
    ∀ (l : List α) (a : α) (g : List α),
      ∃ h t, List.splitBy.loop R l a [] [] = (a :: h) :: t ∧
        List.splitBy.loop R l a g [] = (g.reverse ++ a :: h) :: t := by
  intro l
  induction l with
  | nil =>
    intro a g
    exact ⟨[], [], by simp [List.splitBy.loop], by simp [List.splitBy.loop]⟩
  | cons b l ih =>
    intro a g
    simp only [List.splitBy.loop]
    cases R a b with
    | true =>
      simp only
      obtain ⟨h, t, h0, h1⟩ := ih b [a]
      obtain ⟨h2, t2, h02, h12⟩ := ih b (a :: g)
      rw [h0] at h02
      injection h02 with e1 e2
      injection e1 with _ e3
      subst e2 e3
      exact ⟨b :: h, t, by rw [h1]; simp, by rw [h12]; simp⟩
    | false =>
      simp only
      refine ⟨[], List.splitBy.loop R l b [] [], ?_, ?_⟩
      · rw [splitBy_loop_acc]; simp
      · rw [splitBy_loop_acc]; simp

/-- The first block of a non-empty list starts with its first element. -/
theorem splitBy_cons_head {α : Type} (R : α → α → Bool) (b : α) (l : List α) :
    ∃ h t, List.splitBy R (b :: l) = (b :: h) :: t := by
  obtain ⟨h, t, h0, _⟩ := splitBy_loop_group R l b []
  exact ⟨h, t, h0⟩

/-- Adding an element in front either extends the first block or opens a new
one. -/
theorem splitBy_cons_cons {α : Type} (R : α → α → Bool) (a b : α)
    (l h : List α) (t : List (List α))
    (hb : List.splitBy R (b :: l) = (b :: h) :: t) :
    List.splitBy R (a :: b :: l)
      = if R a b then (a :: b :: h) :: t else [a] :: (b :: h) :: t := by
  have hb2 : List.splitBy.loop R l b [] [] = (b :: h) :: t := hb
  show List.splitBy.loop R (b :: l) a [] [] = _
  simp only [List.splitBy.loop]
  cases R a b with
  | true =>
    simp only
    obtain ⟨h2, t2, h0, h1⟩ := splitBy_loop_group R l b [a]
    rw [hb2] at h0
    injection h0 with e1 e2
    injection e1 with _ e3
    subst e2 e3
    rw [h1]; simp
  | false =>
    simp only
    rw [splitBy_loop_acc, hb2]; simp

theorem residue_loop_cons (atoms : List atom_record) (a : atom_record)
    (rest : List atom_record) (prev : Int) :
    residue_loop atoms (a :: rest) prev
      = if a.res_number ≠ prev then
          residue_row atoms a.res_number a.chain_id
            :: residue_loop atoms rest a.res_number
        else residue_loop atoms rest prev := rfl

/-- The residue loop in terms of the blocks of the atoms still to be visited:
the first block gets a row unless its residue number equals `res_num_prev`,
every later block gets one. -/
theorem residue_loop_blocks (atoms : List atom_record) :
    ∀ (rest : List atom_record) (a : atom_record) (prev : Int),
      ∃ h t, residue_blocks (a :: rest) = (a :: h) :: t ∧
        (residue_loop atoms (a :: rest) prev).map some
          = if a.res_number = prev then t.map (block_row atoms)
            else some (residue_row atoms a.res_number a.chain_id)
              :: t.map (block_row atoms) := by
  intro rest
  induction rest with
  | nil =>
    intro a prev
    refine ⟨[], [], by simp [residue_blocks, List.splitBy, List.splitBy.loop], ?_⟩
    by_cases hp : a.res_number = prev <;> simp [residue_loop, hp]
  | cons b l ih =>
    intro a prev
    by_cases hab : a.res_number = b.res_number
    · -- `a` continues the block of `b`
      by_cases hp : a.res_number = prev
      · obtain ⟨h, t, hblk, hloop⟩ := ih b prev
        refine ⟨b :: h, t, ?_, ?_⟩
        · unfold residue_blocks at hblk ⊢
          rw [splitBy_cons_cons _ a b l h t hblk]; simp [hab]
        · have hbp : b.res_number = prev := by rw [← hab]; exact hp
          rw [if_pos hbp] at hloop
          rw [if_pos hp, ← hloop, residue_loop_cons, if_neg (not_not.mpr hp)]
      · obtain ⟨h, t, hblk, hloop⟩ := ih b a.res_number
        refine ⟨b :: h, t, ?_, ?_⟩
        · unfold residue_blocks at hblk ⊢
          rw [splitBy_cons_cons _ a b l h t hblk]; simp [hab]
        · rw [if_pos hab.symm] at hloop
          rw [if_neg hp, residue_loop_cons, if_pos hp, List.map_cons, hloop]
    · -- `b` opens a new block
      by_cases hp : a.res_number = prev
      · obtain ⟨h, t, hblk, hloop⟩ := ih b prev
        refine ⟨[], (b :: h) :: t, ?_, ?_⟩
        · unfold residue_blocks at hblk ⊢
          rw [splitBy_cons_cons _ a b l h t hblk]; simp [hab]
        · have hbp : ¬ b.res_number = prev := by
            intro hb; exact hab (by rw [hp, hb])
          rw [if_neg hbp] at hloop
          rw [if_pos hp, residue_loop_cons, if_neg (not_not.mpr hp), hloop]
          simp [block_row]
      · obtain ⟨h, t, hblk, hloop⟩ := ih b a.res_number
        refine ⟨[], (b :: h) :: t, ?_, ?_⟩
        · unfold residue_blocks at hblk ⊢
          rw [splitBy_cons_cons _ a b l h t hblk]; simp [hab]
        · have hba : ¬ b.res_number = a.res_number := fun hb => hab hb.symm
          rw [if_neg hba] at hloop
          rw [if_neg hp, residue_loop_cons, if_pos hp, List.map_cons, hloop]
          simp [block_row]

/-- When the first atom does not carry the residue number -999, the rows
correspond one-to-one and in order to the blocks: the k-th row is the row
computed with the residue number and chain of the first atom of the k-th
block. -/
theorem rows_one_per_block (atoms : List atom_record)
    (h : ∀ a, atoms.head? = some a → a.res_number ≠ -999) :
    (compute_and_write_angles atoms).map some
      = (residue_blocks atoms).map (block_row atoms) := by
  cases atoms with
  | nil => simp [compute_and_write_angles, residue_loop, residue_blocks]
  | cons a rest =>
    have ha : a.res_number ≠ -999 := h a rfl
    obtain ⟨hd, t, hblk, hloop⟩ := residue_loop_blocks (a :: rest) rest a (-999)
    rw [if_neg ha] at hloop
    unfold compute_and_write_angles
    rw [hloop, hblk]
    simp [block_row]

/-- When the first atom carries the residue number -999, the first block gets
no row. -/
theorem first_block_skipped (atoms : List atom_record) (a : atom_record)
    (h : atoms.head? = some a) (ha : a.res_number = -999) :
    (compute_and_write_angles atoms).map some
      = ((residue_blocks atoms).drop 1).map (block_row atoms) := by
  cases atoms with
  | nil => simp at h
  | cons b rest =>
    have hab : b = a := by simpa using h
    subst hab
    obtain ⟨hd, t, hblk, hloop⟩ := residue_loop_blocks (b :: rest) rest b (-999)
    rw [if_pos ha] at hloop
    unfold compute_and_write_angles
    rw [hloop, hblk]
    simp

/-- C6 fails on the atom list whose first two atoms have the residue number
-999 and whose third atom has -998: there are two maximal blocks of equal
residue numbers, but `compute_and_write_angles` emits one row only, the row
of the second block, because `res_num_prev` starts at -999. -/
theorem first_residue_minus_999_gets_no_row :
    residue_blocks chain_from_minus_999
      = [[named_atom "P" (-999) 'A' 0 0 0, named_atom "O5'" (-999) 'A' 1 0 0],
         [named_atom "P" (-998) 'A' 2 2 2]] ∧
    compute_and_write_angles chain_from_minus_999
      = [residue_row chain_from_minus_999 (-998) 'A'] := by
  constructor
  · simp [residue_blocks, chain_from_minus_999, List.splitBy, List.splitBy.loop,
      named_atom]
  · simp [compute_and_write_angles, residue_loop, chain_from_minus_999, named_atom]

/-! ## Further evaluations on the sample chain -/

/-- In the sample chain the lookup of P in residue 2 of chain A succeeds, so
by C5 some record matches the three keys. -/
theorem find_atom_first_match_witness :
    find_atom sample_chain 2 'A' "P" = 10 ∧
    ¬ ∀ a ∈ sample_chain, ¬ (a.res_number = 2 ∧ a.chain_id = 'A' ∧ a.name = "P") :=
  have hval : find_atom sample_chain 2 'A' "P" = 10 := by decide
  ⟨hval, fun hall => by
    have h := (find_atom_first_match sample_chain 2 'A' "P").1.mpr hall
    rw [hval] at h
    exact absurd h (by decide)⟩

/-- In the row of residue 2 of the sample chain delta is the sentinel, because
there is no P in a residue 3, while gamma, whose four atoms are all present,
is not, by C4. -/
theorem sentinel_iff_missing_witness :
    (residue_row sample_chain 2 'A').delta = 999 ∧
    (residue_row sample_chain 2 'A').gamma ≠ 999 := by
  have h := ((sentinel_iff_missing sample_chain).2 2 'A').1
  refine ⟨h.2.2.2.1.mpr (Or.inr (Or.inr (Or.inr ?_))), fun hg => ?_⟩
  · exact Option.isNone_iff_eq_none.mp (by decide)
  · rcases h.2.2.1.mp hg with h1 | h1 | h1 | h1
    · exact absurd (Option.isNone_iff_eq_none.mpr h1) (by decide)
    · exact absurd (Option.isNone_iff_eq_none.mpr h1) (by decide)
    · exact absurd (Option.isNone_iff_eq_none.mpr h1) (by decide)
    · exact absurd (Option.isNone_iff_eq_none.mpr h1) (by decide)

/-! ## Mirror images -/

/-- A conformation and its mirror image get the same angle: the reflection
negates both normals up to the reflection itself, which changes neither their
dot product nor their magnitudes, and the sign test only depends on the dot
product. -/
theorem dihedral_angle_mirror (a1 a2 a3 a4 : atom_record) :
    dihedral_angle (mirror a1) (mirror a2) (mirror a3) (mirror a4)
      = dihedral_angle a1 a2 a3 a4 := by
  have hm1 : magnitude (normal1 (mirror a1) (mirror a2) (mirror a3))
      = magnitude (normal1 a1 a2 a3) := by
    simp only [magnitude, normal1, cross_product, bond, mirror]
    congr 1; ring
  have hm2 : magnitude (normal2 (mirror a2) (mirror a3) (mirror a4))
      = magnitude (normal2 a2 a3 a4) := by
    simp only [magnitude, normal2, cross_product, bond, mirror]
    congr 1; ring
  have hdot : dot_product (normal1 (mirror a1) (mirror a2) (mirror a3))
      (normal2 (mirror a2) (mirror a3) (mirror a4))
      = dot_product (normal1 a1 a2 a3) (normal2 a2 a3 a4) := by
    simp only [dot_product, normal1, normal2, cross_product, bond, mirror]
    ring
  rw [dihedral_angle_eq, dihedral_angle_eq]
  unfold acos_argument cross_prod_of clamped_dot
  rw [sign_test_eq, sign_test_eq, hm1, hm2, hdot]

/-! ## The minimal two-residue chain -/

theorem minimal_chain_rows (pos : Nat → Vec3) :
    compute_and_write_angles (minimal_chain pos)
      = [residue_row (minimal_chain pos) 1 'A',
         residue_row (minimal_chain pos) 2 'A'] := by
  simp [compute_and_write_angles, residue_loop, minimal_chain, named_atom]

/-- The angles of the row of residue 1 of the minimal chain: alpha and chi are
the sentinel, the five others are not. -/
theorem minimal_chain_row1 (pos : Nat → Vec3) :
    (residue_row (minimal_chain pos) 1 'A').alpha = 999 ∧
    (residue_row (minimal_chain pos) 1 'A').beta ≠ 999 ∧
    (residue_row (minimal_chain pos) 1 'A').gamma ≠ 999 ∧
    (residue_row (minimal_chain pos) 1 'A').delta ≠ 999 ∧
    (residue_row (minimal_chain pos) 1 'A').epsilon ≠ 999 ∧
    (residue_row (minimal_chain pos) 1 'A').zeta ≠ 999 ∧
    (residue_row (minimal_chain pos) 1 'A').chi = 999 := by
  have hP0 : found_atom (minimal_chain pos) (1 - 1) 'A' "P" = none := rfl
  have hO4 : found_atom (minimal_chain pos) 1 'A' "O4'" = none := rfl
  have hO5 : found_atom (minimal_chain pos) 1 'A' "O5'"
      = some (named_atom "O5'" 1 'A' (pos 0).c0 (pos 0).c1 (pos 0).c2) := rfl
  have hC5 : found_atom (minimal_chain pos) 1 'A' "C5'"
      = some (named_atom "C5'" 1 'A' (pos 1).c0 (pos 1).c1 (pos 1).c2) := rfl
  have hC4 : found_atom (minimal_chain pos) 1 'A' "C4'"
      = some (named_atom "C4'" 1 'A' (pos 2).c0 (pos 2).c1 (pos 2).c2) := rfl
  have hC3 : found_atom (minimal_chain pos) 1 'A' "C3'"
      = some (named_atom "C3'" 1 'A' (pos 3).c0 (pos 3).c1 (pos 3).c2) := rfl
  have hO3 : found_atom (minimal_chain pos) 1 'A' "O3'"
      = some (named_atom "O3'" 1 'A' (pos 4).c0 (pos 4).c1 (pos 4).c2) := rfl
  have hP2 : found_atom (minimal_chain pos) (1 + 1) 'A' "P"
      = some (named_atom "P" 2 'A' (pos 5).c0 (pos 5).c1 (pos 5).c2) := rfl
  have hO52 : found_atom (minimal_chain pos) (1 + 1) 'A' "O5'"
      = some (named_atom "O5'" 2 'A' (pos 6).c0 (pos 6).c1 (pos 6).c2) := rfl
  have hC52 : found_atom (minimal_chain pos) (1 + 1) 'A' "C5'"
      = some (named_atom "C5'" 2 'A' (pos 7).c0 (pos 7).c1 (pos 7).c2) := rfl
  refine ⟨?_, ?_, ?_, ?_, ?_, ?_, ?_⟩
  · rw [residue_row_alpha, angle_of_eq_sentinel_iff]; exact Or.inl hP0
  · rw [residue_row_beta, hO5, hC5, hC4, hC3]; exact dihedral_angle_ne_sentinel _ _ _ _
  · rw [residue_row_gamma, hC5, hC4, hC3, hO3]; exact dihedral_angle_ne_sentinel _ _ _ _
  · rw [residue_row_delta, hC4, hC3, hO3, hP2]; exact dihedral_angle_ne_sentinel _ _ _ _
  · rw [residue_row_epsilon, hC3, hO3, hP2, hO52]
    exact dihedral_angle_ne_sentinel _ _ _ _
  · rw [residue_row_zeta, hO3, hP2, hO52, hC52]
    exact dihedral_angle_ne_sentinel _ _ _ _
  · rw [residue_row_chi, angle_of_eq_sentinel_iff]; exact Or.inl hO4

theorem zigzag_non_degenerate (k : Nat) (hk : k < 8) :
    cross_prod_of (atom_at (minimal_chain zigzag) k)
      (atom_at (minimal_chain zigzag) (k + 1))
      (atom_at (minimal_chain zigzag) (k + 2))
      (atom_at (minimal_chain zigzag) (k + 3)) = 1 := by
  interval_cases k <;>
    simp [cross_prod_of, normal1, normal2, magnitude, cross_product, bond, atom_at,
      minimal_chain, named_atom, zigzag] <;> norm_num

/-- C11, as the code has it: whatever the coordinates, the minimal two-residue
chain yields exactly two rows, and in the row of residue 1 beta, gamma, delta,
epsilon and zeta are different from 999.0 (their atoms are O5', C5', C4',
C3', O3' of residue 1 and P, O5', C5' of residue 2, all present), while alpha
(which needs P of residue 0) and chi (which needs O4', C1' and a base) are
999.0. -/
theorem minimal_chain_residue1 (pos : Nat → Vec3) :
    ∃ row1 row2, compute_and_write_angles (minimal_chain pos) = [row1, row2] ∧
      row1.res_num = 1 ∧
      row1.alpha = 999 ∧ row1.beta ≠ 999 ∧ row1.gamma ≠ 999 ∧
      row1.delta ≠ 999 ∧ row1.epsilon ≠ 999 ∧ row1.zeta ≠ 999 ∧
      row1.chi = 999 :=
  ⟨residue_row (minimal_chain pos) 1 'A', residue_row (minimal_chain pos) 2 'A',
    minimal_chain_rows pos, rfl, minimal_chain_row1 pos⟩

/-- C11 fails on the minimal chain laid out on a non-degenerate zigzag: the
row of residue 1 does not have alpha, beta, gamma different from 999.0 together
with delta, epsilon, zeta, chi equal to 999.0; its alpha is 999.0 and its
delta, epsilon and zeta are not. -/
theorem minimal_chain_zigzag_residue1 :
    (∀ k : Nat, k < 8 → cross_prod_of (atom_at (minimal_chain zigzag) k)
      (atom_at (minimal_chain zigzag) (k + 1))
      (atom_at (minimal_chain zigzag) (k + 2))
      (atom_at (minimal_chain zigzag) (k + 3)) > 1e-8) ∧
    ∃ row1 row2, compute_and_write_angles (minimal_chain zigzag) = [row1, row2] ∧
      row1.res_num = 1 ∧
      ¬ (row1.alpha ≠ 999 ∧ row1.beta ≠ 999 ∧ row1.gamma ≠ 999 ∧
        row1.delta = 999 ∧ row1.epsilon = 999 ∧ row1.zeta = 999 ∧
        row1.chi = 999) ∧
      row1.alpha = 999 ∧ row1.delta ≠ 999 ∧ row1.epsilon ≠ 999 ∧
      row1.zeta ≠ 999 := by
  have h := minimal_chain_row1 zigzag
  refine ⟨fun k hk => by rw [zigzag_non_degenerate k hk]; norm_num,
    residue_row (minimal_chain zigzag) 1 'A', residue_row (minimal_chain zigzag) 2 'A',
    minimal_chain_rows zigzag, rfl, fun hc => hc.1 h.1, h.1, h.2.2.2.1,
    h.2.2.2.2.1, h.2.2.2.2.2.1⟩

/-! ## Residue keys with equal residue numbers -/

/-- C12 fails on the list in which residue 1 of chain `A` is directly followed
by residue 1 of chain `B`: both keys occur, but the only row emitted is the
one computed with chain `A` (its beta is 999.0); the row of the key `(B, 1)`,
whose beta is a real angle, is never emitted, because the loop only compares
residue numbers. -/
theorem same_number_next_chain_gets_no_row :
    compute_and_write_angles two_chains = [residue_row two_chains 1 'A'] ∧
    (residue_row two_chains 1 'A').beta = 999 ∧
    (residue_row two_chains 1 'B').beta ≠ 999 := by
  refine ⟨?_, ?_, ?_⟩
  · simp [compute_and_write_angles, residue_loop, two_chains, named_atom]
  · rw [residue_row_beta, angle_of_eq_sentinel_iff]
    exact Or.inl rfl
  · have h1 : found_atom two_chains 1 'B' "O5'" = some (named_atom "O5'" 1 'B' 1 0 0) :=
      rfl
    have h2 : found_atom two_chains 1 'B' "C5'" = some (named_atom "C5'" 1 'B' 0 0 0) :=
      rfl
    have h3 : found_atom two_chains 1 'B' "C4'" = some (named_atom "C4'" 1 'B' 0 0 1) :=
      rfl
    have h4 : found_atom two_chains 1 'B' "C3'" = some (named_atom "C3'" 1 'B' 0 1 1) :=
      rfl
    rw [residue_row_beta, h1, h2, h3, h4]
    exact dihedral_angle_ne_sentinel _ _ _ _

/-! ## The base carbon of chi -/

/-- C16 fails on a pyrimidine residue that has O4', C1', N1 and C2 and neither
N9 nor C8: the four atoms of the header's chi are found and their dihedral is
not 999.0, but the chi of the emitted row is 999.0, because the code looks up
C8 and then C6, never C2. -/
theorem pyrimidine_chi_ignores_c2 :
    (found_atom pyrimidine_c2 1 'A' "O4'").isSome ∧
    (found_atom pyrimidine_c2 1 'A' "C1'").isSome ∧
    (found_atom pyrimidine_c2 1 'A' "N1").isSome ∧
    (found_atom pyrimidine_c2 1 'A' "C2").isSome ∧
    (found_atom pyrimidine_c2 1 'A' "N9").isNone ∧
    (found_atom pyrimidine_c2 1 'A' "C8").isNone ∧
    compute_and_write_angles pyrimidine_c2 = [residue_row pyrimidine_c2 1 'A'] ∧
    (residue_row pyrimidine_c2 1 'A').chi = 999 ∧
    angle_of (found_atom pyrimidine_c2 1 'A' "O4'")
      (found_atom pyrimidine_c2 1 'A' "C1'") (found_atom pyrimidine_c2 1 'A' "N1")
      (found_atom pyrimidine_c2 1 'A' "C2") ≠ 999 := by
  refine ⟨by decide, by decide, by decide, by decide, by decide, by decide, ?_, ?_, ?_⟩
  · simp [compute_and_write_angles, residue_loop, pyrimidine_c2, named_atom]
  · rw [residue_row_chi, angle_of_eq_sentinel_iff, first_found_eq_none_iff,
      first_found_eq_none_iff]
    exact Or.inr (Or.inr (Or.inr ⟨rfl, rfl⟩))
  · rw [Ne, angle_of_eq_sentinel_iff]
    rintro (h | h | h | h) <;> exact absurd (Option.isNone_iff_eq_none.mpr h) (by decide)

/-- With C6 present as well, the chi of the pyrimidine row is the dihedral
that ends in C6 (0 degrees here), not the one that ends in C2 (90 degrees
here). -/
theorem pyrimidine_chi_uses_c6 :
    (residue_row pyrimidine_c2_c6 1 'A').chi
      = dihedral_angle (named_atom "O4'" 1 'A' 1 0 0) (named_atom "C1'" 1 'A' 0 0 0)
          (named_atom "N1" 1 'A' 0 0 1) (named_atom "C6" 1 'A' 1 0 1) ∧
    dihedral_angle (named_atom "O4'" 1 'A' 1 0 0) (named_atom "C1'" 1 'A' 0 0 0)
      (named_atom "N1" 1 'A' 0 0 1) (named_atom "C6" 1 'A' 1 0 1) = 0 ∧
    dihedral_angle (named_atom "O4'" 1 'A' 1 0 0) (named_atom "C1'" 1 'A' 0 0 0)
      (named_atom "N1" 1 'A' 0 0 1) (named_atom "C2" 1 'A' 0 1 1) = 90 := by
  refine ⟨?_, ?_, ?_⟩
  · rw [residue_row_chi]; rfl
  · have hc : cross_prod_of (named_atom "O4'" 1 'A' 1 0 0) (named_atom "C1'" 1 'A' 0 0 0)
        (named_atom "N1" 1 'A' 0 0 1) (named_atom "C6" 1 'A' 1 0 1) = 1 := by
      simp [cross_prod_of, normal1, normal2, magnitude, cross_product, bond, named_atom]
    have hd : clamped_dot (named_atom "O4'" 1 'A' 1 0 0) (named_atom "C1'" 1 'A' 0 0 0)
        (named_atom "N1" 1 'A' 0 0 1) (named_atom "C6" 1 'A' 1 0 1) = 1 := by
      simp only [clamped_dot, normal1, normal2, dot_product, cross_product, bond,
        named_atom]
      norm_num
    rw [dihedral_angle_eq, if_pos (by rw [hc]; norm_num)]
    unfold acos_argument
    rw [hc, hd, div_one, Real.arccos_one]
    split_ifs <;> simp
  · have hc : cross_prod_of (named_atom "O4'" 1 'A' 1 0 0) (named_atom "C1'" 1 'A' 0 0 0)
        (named_atom "N1" 1 'A' 0 0 1) (named_atom "C2" 1 'A' 0 1 1) = 1 := by
      simp [cross_prod_of, normal1, normal2, magnitude, cross_product, bond, named_atom]
    have hd : clamped_dot (named_atom "O4'" 1 'A' 1 0 0) (named_atom "C1'" 1 'A' 0 0 0)
        (named_atom "N1" 1 'A' 0 0 1) (named_atom "C2" 1 'A' 0 1 1) = 0 := by
      simp only [clamped_dot, normal1, normal2, dot_product, cross_product, bond,
        named_atom]
      norm_num
    have hs : ¬ sign_test (named_atom "O4'" 1 'A' 1 0 0) (named_atom "C1'" 1 'A' 0 0 0)
        (named_atom "N1" 1 'A' 0 0 1) (named_atom "C2" 1 'A' 0 1 1) < 0 := by
      simp only [sign_test, normal1, dot_product, cross_product, bond, named_atom]
      norm_num
    rw [dihedral_angle_eq, if_pos (by rw [hc]; norm_num), if_neg hs]
    unfold acos_argument
    rw [hd, zero_div, Real.arccos_zero]
    have hpi : PI = Real.pi := rfl
    rw [hpi]
    have := Real.pi_pos
    field_simp
    ring

/-! ## The sign of the result -/

theorem bond_reflect (p u : Vec3) (a b : atom_record) :
    bond (reflect p u a) (reflect p u b) = reflect_vector u (bond a b) := by
  simp only [bond, reflect, reflect_vector, dot_product, Vec3.mk.injEq]
  refine ⟨by ring, by ring, by ring⟩

theorem magnitude_cross_reflect (u b1 b2 : Vec3) (hu : dot_product u u ≠ 0) :
    magnitude (cross_product (reflect_vector u b1) (reflect_vector u b2))
      = magnitude (cross_product b1 b2) := by
  simp only [magnitude, cross_product, reflect_vector, dot_product] at hu ⊢
  congr 1; field_simp; ring

theorem dot_cross_reflect (u b1 b2 b3 : Vec3) (hu : dot_product u u ≠ 0) :
    dot_product (cross_product (reflect_vector u b1) (reflect_vector u b2))
        (cross_product (reflect_vector u b2) (reflect_vector u b3))
      = dot_product (cross_product b1 b2) (cross_product b2 b3) := by
  simp only [dot_product, cross_product, reflect_vector] at hu ⊢
  field_simp; ring

/-- A conformation and its mirror image in any plane get the same angle. -/
theorem dihedral_angle_reflect (p u : Vec3) (hu : dot_product u u ≠ 0)
    (a1 a2 a3 a4 : atom_record) :
    dihedral_angle (reflect p u a1) (reflect p u a2) (reflect p u a3) (reflect p u a4)
      = dihedral_angle a1 a2 a3 a4 := by
  rw [dihedral_angle_eq, dihedral_angle_eq]
  unfold acos_argument cross_prod_of clamped_dot
  rw [sign_test_eq, sign_test_eq]
  unfold normal1 normal2
  rw [bond_reflect, bond_reflect, bond_reflect, magnitude_cross_reflect u _ _ hu,
    magnitude_cross_reflect u _ _ hu, dot_cross_reflect u _ _ _ hu]

theorem clamped_dot_nonpos (a1 a2 a3 a4 : atom_record)
    (h : dot_product (normal1 a1 a2 a3) (normal2 a2 a3 a4) ≤ 0) :
    clamped_dot a1 a2 a3 a4 ≤ 0 := by
  unfold clamped_dot
  simp only
  split_ifs with h1 h2 h3 <;> linarith

theorem dihedral_angle_of_dot_pos (a1 a2 a3 a4 : atom_record)
    (hc : cross_prod_of a1 a2 a3 a4 > 1e-8)
    (hd : 0 < dot_product (normal1 a1 a2 a3) (normal2 a2 a3 a4)) :
    dihedral_angle a1 a2 a3 a4
      = -Real.arccos (acos_argument a1 a2 a3 a4) * 180 / PI := by
  have hs : sign_test a1 a2 a3 a4 < 0 := by rw [sign_test_eq]; linarith
  rw [dihedral_angle_eq, if_pos hc, if_pos hs]

theorem dihedral_angle_of_dot_nonpos (a1 a2 a3 a4 : atom_record)
    (hc : cross_prod_of a1 a2 a3 a4 > 1e-8)
    (hd : ¬ 0 < dot_product (normal1 a1 a2 a3) (normal2 a2 a3 a4)) :
    dihedral_angle a1 a2 a3 a4
      = Real.arccos (acos_argument a1 a2 a3 a4) * 180 / PI := by
  have hs : ¬ sign_test a1 a2 a3 a4 < 0 := by rw [sign_test_eq]; linarith
  rw [dihedral_angle_eq, if_pos hc, if_neg hs]

theorem dihedral_angle_two_ranges (a1 a2 a3 a4 : atom_record) :
    (-90 < dihedral_angle a1 a2 a3 a4 ∧ dihedral_angle a1 a2 a3 a4 ≤ 0) ∨
    (90 ≤ dihedral_angle a1 a2 a3 a4 ∧ dihedral_angle a1 a2 a3 a4 ≤ 180) := by
  have hpi : 0 < Real.pi := Real.pi_pos
  have hPI : PI = Real.pi := rfl
  have h0 := Real.arccos_nonneg (acos_argument a1 a2 a3 a4)
  have h1 := Real.arccos_le_pi (acos_argument a1 a2 a3 a4)
  by_cases hc : cross_prod_of a1 a2 a3 a4 > 1e-8
  · by_cases hd : 0 < dot_product (normal1 a1 a2 a3) (normal2 a2 a3 a4)
    · left
      have hs : sign_test a1 a2 a3 a4 < 0 := by rw [sign_test_eq]; linarith
      have h2 := arccos_lt_of_sign_neg a1 a2 a3 a4 hc hs
      rw [dihedral_angle_of_dot_pos a1 a2 a3 a4 hc hd, hPI]
      constructor
      · rw [lt_div_iff₀ hpi]; nlinarith
      · rw [div_le_iff₀ hpi]; nlinarith
    · right
      have hpos : 0 < cross_prod_of a1 a2 a3 a4 := lt_trans (by norm_num) hc
      have harg : acos_argument a1 a2 a3 a4 ≤ 0 :=
        div_nonpos_of_nonpos_of_nonneg
          (clamped_dot_nonpos a1 a2 a3 a4 (not_lt.mp hd)) hpos.le
      have h2 : Real.pi / 2 ≤ Real.arccos (acos_argument a1 a2 a3 a4) := by
        by_contra hlt
        have := Real.arccos_lt_pi_div_two.mp (not_le.mp hlt)
        linarith
      rw [dihedral_angle_of_dot_nonpos a1 a2 a3 a4 hc hd, hPI]
      constructor
      · rw [le_div_iff₀ hpi]; nlinarith
      · rw [div_le_iff₀ hpi]; nlinarith
  · left
    rw [dihedral_angle_eq, if_neg hc]
    constructor <;> norm_num

/-- C17: the scalar triple product of the sign statement is identically the
negated dot product of the two normals; so, in the `acos` branch, the angle is
negated exactly when that dot product is positive, the result always lies in
`(-90, 0]` or in `[90, 180]` (never in `(0, 90)` or `(-180, -90)`), and a
conformation and its mirror image in any plane get the same result. -/
theorem sign_test_follows_dot (a1 a2 a3 a4 : atom_record) :
    dot_product
        (cross_product (bond a2 a3) (cross_product (bond a1 a2) (bond a2 a3)))
        (bond a3 a4)
      = -dot_product (cross_product (bond a1 a2) (bond a2 a3))
          (cross_product (bond a2 a3) (bond a3 a4)) ∧
    (cross_prod_of a1 a2 a3 a4 > 1e-8 →
      (0 < dot_product (normal1 a1 a2 a3) (normal2 a2 a3 a4) →
        dihedral_angle a1 a2 a3 a4
          = -Real.arccos (acos_argument a1 a2 a3 a4) * 180 / PI) ∧
      (¬ 0 < dot_product (normal1 a1 a2 a3) (normal2 a2 a3 a4) →
        dihedral_angle a1 a2 a3 a4
          = Real.arccos (acos_argument a1 a2 a3 a4) * 180 / PI)) ∧
    ((-90 < dihedral_angle a1 a2 a3 a4 ∧ dihedral_angle a1 a2 a3 a4 ≤ 0) ∨
      (90 ≤ dihedral_angle a1 a2 a3 a4 ∧ dihedral_angle a1 a2 a3 a4 ≤ 180)) ∧
    (∀ p u : Vec3, dot_product u u ≠ 0 →
      dihedral_angle (reflect p u a1) (reflect p u a2) (reflect p u a3)
          (reflect p u a4)
        = dihedral_angle a1 a2 a3 a4) :=
  ⟨sign_test_eq a1 a2 a3 a4,
    fun hc => ⟨dihedral_angle_of_dot_pos a1 a2 a3 a4 hc,
      dihedral_angle_of_dot_nonpos a1 a2 a3 a4 hc⟩,
    dihedral_angle_two_ranges a1 a2 a3 a4,
    fun p u hu => dihedral_angle_reflect p u hu a1 a2 a3 a4⟩

/-- The cis conformation has a positive dot product of the normals, so its
angle is the negated arc cosine, by C17. -/
theorem sign_test_follows_dot_witness :
    cross_prod_of cis1 cis2 cis3 cis4 > 1e-8 ∧
    0 < dot_product (normal1 cis1 cis2 cis3) (normal2 cis2 cis3 cis4) ∧
    dihedral_angle cis1 cis2 cis3 cis4
      = -Real.arccos (acos_argument cis1 cis2 cis3 cis4) * 180 / PI := by
  have hdot : dot_product (normal1 cis1 cis2 cis3) (normal2 cis2 cis3 cis4) = 16 := by
    simp only [normal1, normal2, dot_product, cross_product, bond, cis1, cis2, cis3,
      cis4, atom_at_position]
    norm_num
  have hc : cross_prod_of cis1 cis2 cis3 cis4 > 1e-8 := by
    have h16 : cross_prod_of cis1 cis2 cis3 cis4 = 16 := by
      simp only [cross_prod_of, normal1, normal2, magnitude, cross_product, bond,
        cis1, cis2, cis3, cis4, atom_at_position]
      norm_num
    rw [h16]; norm_num
  have hd : 0 < dot_product (normal1 cis1 cis2 cis3) (normal2 cis2 cis3 cis4) := by
    rw [hdot]; norm_num
  exact ⟨hc, hd, ((sign_test_follows_dot cis1 cis2 cis3 cis4).2.1 hc).1 hd⟩

/-! ## The strings returned by `fgets` -/

theorem fgets_read_short (rest : List Char) :
    ∀ (l : List Char) (n : Nat), LF ∉ l → l.length < n →
      fgets_read n (l ++ LF :: rest) = (l ++ [LF], rest) := by
  intro l
  induction l with
  | nil =>
    intro n _ hn
    cases n with
    | zero => omega
    | succ n => simp [fgets_read]
  | cons c l ih =>
    intro n hl hn
    cases n with
    | zero => simp at hn
    | succ n =>
      have hc : c ≠ LF := fun h => hl (by rw [h]; exact List.mem_cons_self _ _)
      have hl2 : LF ∉ l := fun h => hl (List.mem_cons_of_mem _ h)
      have hn2 : l.length < n := by simpa using hn
      simp only [List.cons_append, fgets_read, if_neg hc, List.append_eq, ih n hl2 hn2]

theorem fgets_read_full (rest : List Char) :
    ∀ (l : List Char), LF ∉ l → fgets_read l.length (l ++ rest) = (l, rest) := by
  intro l
  induction l with
  | nil => intro _; simp [fgets_read]
  | cons c l ih =>
    intro hl
    have hc : c ≠ LF := fun h => hl (by rw [h]; exact List.mem_cons_self _ _)
    have hl2 : LF ∉ l := fun h => hl (List.mem_cons_of_mem _ h)
    simp only [List.cons_append, List.length_cons, fgets_read, if_neg hc, List.append_eq,
      ih hl2]

theorem fgets_all_cons (fuel : Nat) (c : Char) (s : List Char) :
    fgets_all (fuel + 1) (c :: s)
      = (fgets_read 80 (c :: s)).1 :: fgets_all fuel (fgets_read 80 (c :: s)).2 := rfl

theorem fgets_all_succ (fuel : Nat) (s : List Char) (hs : s ≠ []) :
    fgets_all (fuel + 1) s = (fgets_read 80 s).1 :: fgets_all fuel (fgets_read 80 s).2 := by
  cases s with
  | nil => exact absurd rfl hs
  | cons c s => rfl

theorem file_of_lines_cons (l : List Char) (ls : List (List Char)) :
    file_of_lines (l :: ls) = l ++ LF :: file_of_lines ls := rfl

theorem fgets_all_nil (fuel : Nat) : fgets_all fuel [] = [] := by
  cases fuel <;> rfl

theorem file_of_lines_length_cons (l : List Char) (ls : List (List Char)) :
    (file_of_lines (l :: ls)).length = l.length + 1 + (file_of_lines ls).length := by
  simp [file_of_lines]; omega

theorem fgets_all_lines :
    ∀ (lines : List (List Char)) (fuel : Nat),
      (∀ l ∈ lines, l.length ≤ 80 ∧ LF ∉ l) →
      (file_of_lines lines).length ≤ fuel →
      fgets_all fuel (file_of_lines lines) = chunks_of_lines lines := by
  intro lines
  induction lines with
  | nil => intro fuel _ _; exact fgets_all_nil fuel
  | cons l ls ih =>
    intro fuel hl hfuel
    have hl0 := hl l (List.mem_cons_self _ _)
    have hls : ∀ l2 ∈ ls, l2.length ≤ 80 ∧ LF ∉ l2 :=
      fun l2 h2 => hl l2 (List.mem_cons_of_mem _ h2)
    rw [file_of_lines_length_cons] at hfuel
    obtain ⟨f, rfl⟩ : ∃ f, fuel = f + 1 := ⟨fuel - 1, by omega⟩
    have hne : file_of_lines (l :: ls) ≠ [] := by simp [file_of_lines]
    rw [fgets_all_succ f _ hne, file_of_lines_cons]
    by_cases hlen : l.length < 80
    · rw [fgets_read_short _ l 80 hl0.2 hlen]
      simp only [chunks_of_lines, if_pos hlen]
      rw [ih f hls (by omega)]
    · have h80 : l.length = 80 := by omega
      have hfull := fgets_read_full (LF :: file_of_lines ls) l hl0.2
      rw [h80] at hfull
      rw [hfull]
      simp only [chunks_of_lines, if_neg hlen]
      obtain ⟨g, rfl⟩ : ∃ g, f = g + 1 := ⟨f - 1, by omega⟩
      rw [fgets_all_cons]
      have hnl : fgets_read 80 (LF :: file_of_lines ls) = ([LF], file_of_lines ls) := by
        simp [fgets_read]
      rw [hnl, ih g hls (by omega)]

theorem take_takeWhile_iff (p : Char → Bool) :
    ∀ (T l : List Char), (∀ c ∈ T, p c = true) →
      ((l.takeWhile p).take T.length = T ↔ l.take T.length = T) := by
  intro T
  induction T with
  | nil => intro l _; simp
  | cons t T ih =>
    intro l hT
    have ht : p t = true := hT t (List.mem_cons_self _ _)
    have hT2 : ∀ c ∈ T, p c = true := fun c hc => hT c (List.mem_cons_of_mem _ hc)
    cases l with
    | nil => simp
    | cons c l =>
      by_cases hc : p c = true
      · simp only [List.takeWhile_cons, hc, if_true, List.length_cons, List.take_succ_cons,
          List.cons.injEq, ih l hT2]
      · have hne : c ≠ t := fun h => hc (h ▸ ht)
        simp [List.takeWhile_cons, hc, hne]

theorem take_append_cons_iff (x : Char) (rest : List Char) :
    ∀ (T l : List Char), x ∉ T →
      ((l ++ x :: rest).take T.length = T ↔ l.take T.length = T) := by
  intro T
  induction T with
  | nil => intro l _; simp
  | cons t T ih =>
    intro l hT
    have hxt : x ≠ t := fun h => hT (by rw [h]; exact List.mem_cons_self _ _)
    have hT2 : x ∉ T := fun h => hT (List.mem_cons_of_mem _ h)
    cases l with
    | nil => simp [hxt]
    | cons c l =>
      simp only [List.cons_append, List.length_cons, List.take_succ_cons, List.cons.injEq,
        ih l hT2]

/-- The record type that the loop extracts is the first six characters of the
string that `fgets` returned. -/
theorem record_type_eq_iff (buf chunk T : List Char) (hlen : T.length = 6)
    (hT : NUL ∉ T) :
    strncpy_at (fgets_store buf chunk) 0 6 = T ↔ chunk.take 6 = T := by
  unfold strncpy_at c_string_at fgets_store
  rw [List.drop_zero, ← hlen]
  rw [take_takeWhile_iff _ T _ (fun c hc => by
    simp only [ne_eq, decide_not, Bool.not_eq_true', decide_eq_false_iff_not]
    exact fun h => hT (h ▸ hc))]
  exact take_append_cons_iff NUL _ T chunk hT

theorem atom_type_iff (buf chunk : List Char) :
    strncpy_at (fgets_store buf chunk) 0 6 = "ATOM  ".toList ↔ is_atom_line chunk :=
  record_type_eq_iff buf chunk _ rfl (by decide)

theorem end_type_iff (buf chunk : List Char) :
    strncpy_at (fgets_store buf chunk) 0 6 = "END   ".toList ↔ is_end_line chunk :=
  record_type_eq_iff buf chunk _ rfl (by decide)

theorem not_end_of_atom (l : List Char) (h : is_atom_line l) : ¬ is_end_line l := by
  unfold is_atom_line at h
  unfold is_end_line
  rw [h]; decide

theorem atom_lines_before_end_cons (c : List Char) (cs : List (List Char)) :
    atom_lines_before_end (c :: cs)
      = if is_end_line c then []
        else if is_atom_line c then c :: atom_lines_before_end cs
        else atom_lines_before_end cs := by
  unfold atom_lines_before_end
  by_cases he : is_end_line c
  · simp [List.takeWhile_cons, he]
  · by_cases ha : is_atom_line c
    · simp [List.takeWhile_cons, he, ha, List.filter_cons]
    · simp [List.takeWhile_cons, he, ha, List.filter_cons]

theorem read_loop_cons (chunk : List Char) (rest : List (List Char)) (buf : List Char)
    (loc : scan_locals) (atoms : List atom_record) :
    read_loop (chunk :: rest) buf loc atoms
      = if strncpy_at (fgets_store buf chunk) 0 6 = "ATOM  ".toList then
          if atoms.length ≥ MAX_ATOMS then atoms
          else read_loop rest (fgets_store buf chunk)
            (parse_atom (fgets_store buf chunk) loc).1
            (atoms ++ [(parse_atom (fgets_store buf chunk) loc).2])
        else if strncpy_at (fgets_store buf chunk) 0 6 = "END   ".toList then atoms
        else read_loop rest (fgets_store buf chunk) loc atoms := rfl

/-- The loop stores one record per string that starts with `ATOM  ` among the
strings before the first one that starts with `END   `, in order, until the
array is full. -/
theorem read_loop_spec :
    ∀ (chunks : List (List Char)) (buf : List Char) (loc : scan_locals)
      (atoms : List atom_record), atoms.length ≤ MAX_ATOMS →
      ∃ new, read_loop chunks buf loc atoms = atoms ++ new ∧
        List.Forall₂ parsed_from
          ((atom_lines_before_end chunks).take (MAX_ATOMS - atoms.length)) new := by
  intro chunks
  induction chunks with
  | nil =>
    intro buf loc atoms _
    exact ⟨[], by simp [read_loop], by simp [atom_lines_before_end]⟩
  | cons c cs ih =>
    intro buf loc atoms hlen
    rw [read_loop_cons, atom_lines_before_end_cons]
    by_cases ha : is_atom_line c
    · have he : ¬ is_end_line c := not_end_of_atom c ha
      rw [if_pos ((atom_type_iff buf c).mpr ha), if_neg he, if_pos ha]
      by_cases hfull : atoms.length ≥ MAX_ATOMS
      · rw [if_pos hfull]
        refine ⟨[], by simp, ?_⟩
        have h0 : MAX_ATOMS - atoms.length = 0 := by omega
        rw [h0]; simp
      · rw [if_neg hfull]
        obtain ⟨new, hnew, hall⟩ := ih (fgets_store buf c)
          (parse_atom (fgets_store buf c) loc).1
          (atoms ++ [(parse_atom (fgets_store buf c) loc).2])
          (by simp; omega)
        refine ⟨(parse_atom (fgets_store buf c) loc).2 :: new, by rw [hnew]; simp, ?_⟩
        obtain ⟨m, hm⟩ : ∃ m, MAX_ATOMS - atoms.length = m + 1 :=
          ⟨MAX_ATOMS - atoms.length - 1, by omega⟩
        have hm2 : MAX_ATOMS - (atoms ++ [(parse_atom (fgets_store buf c) loc).2]).length
            = m := by simp; omega
        rw [hm2] at hall
        rw [hm, List.take_succ_cons]
        exact List.Forall₂.cons ⟨buf, loc, rfl⟩ hall
    · rw [if_neg (fun h => ha ((atom_type_iff buf c).mp h)), if_neg ha]
      by_cases he : is_end_line c
      · rw [if_pos ((end_type_iff buf c).mpr he), if_pos he]
        exact ⟨[], by simp, by simp⟩
      · rw [if_neg (fun h => he ((end_type_iff buf c).mp h)), if_neg he]
        exact ih (fgets_store buf c) loc atoms hlen

theorem first_chunk_short (l : List Char) (hl : LF ∉ l) (hlen : l.length < 80) :
    first_chunk l = l ++ [LF] := by
  unfold first_chunk
  rw [fgets_read_short [] l 80 hl hlen]

theorem first_chunk_full (l : List Char) (hl : LF ∉ l) (hlen : l.length = 80) :
    first_chunk l = l := by
  unfold first_chunk
  have h := fgets_read_full [LF] l hl
  rw [hlen] at h
  rw [h]

theorem is_atom_line_append_LF (l : List Char) :
    is_atom_line (l ++ [LF]) ↔ is_atom_line l :=
  take_append_cons_iff LF [] "ATOM  ".toList l (by decide)

theorem is_end_line_append_LF (l : List Char) :
    is_end_line (l ++ [LF]) ↔ is_end_line l :=
  take_append_cons_iff LF [] "END   ".toList l (by decide)

theorem atom_lines_of_chunks :
    ∀ (lines : List (List Char)), (∀ l ∈ lines, l.length ≤ 80 ∧ LF ∉ l) →
      atom_lines_before_end (chunks_of_lines lines)
        = (atom_lines_before_end lines).map first_chunk := by
  intro lines
  induction lines with
  | nil => intro _; rfl
  | cons l ls ih =>
    intro hl
    have hl0 := hl l (List.mem_cons_self _ _)
    have hls : ∀ l2 ∈ ls, l2.length ≤ 80 ∧ LF ∉ l2 :=
      fun l2 h2 => hl l2 (List.mem_cons_of_mem _ h2)
    have hrec := ih hls
    by_cases hlen : l.length < 80
    · simp only [chunks_of_lines, if_pos hlen]
      rw [atom_lines_before_end_cons, atom_lines_before_end_cons l, hrec]
      simp only [is_end_line_append_LF, is_atom_line_append_LF]
      split_ifs
      · rfl
      · rw [List.map_cons, first_chunk_short l hl0.2 hlen]
      · rfl
    · have h80 : l.length = 80 := by omega
      have hnl : atom_lines_before_end ([LF] :: chunks_of_lines ls)
          = atom_lines_before_end (chunks_of_lines ls) := by
        rw [atom_lines_before_end_cons, if_neg (by decide), if_neg (by decide)]
      simp only [chunks_of_lines, if_neg hlen]
      rw [atom_lines_before_end_cons, atom_lines_before_end_cons l, hnl, hrec]
      split_ifs
      · rfl
      · rw [List.map_cons, first_chunk_full l hl0.2 h80]
      · rfl

theorem atoms_read_per_line (lines : List (List Char)) (buf0 : List Char)
    (loc0 : scan_locals) (h : ∀ l ∈ lines, l.length ≤ 80 ∧ LF ∉ l) :
    List.Forall₂ (fun line rec => parsed_from (first_chunk line) rec)
      ((atom_lines_before_end lines).take MAX_ATOMS)
      (atoms_read (file_of_lines lines) buf0 loc0) := by
  unfold atoms_read
  rw [fgets_all_lines lines _ h (Nat.le_refl _)]
  obtain ⟨new, hnew, hall⟩ := read_loop_spec (chunks_of_lines lines) buf0 loc0 []
    (Nat.zero_le _)
  rw [hnew, List.nil_append]
  rw [atom_lines_of_chunks lines h, List.length_nil, Nat.sub_zero, ← List.map_take] at hall
  exact List.forall₂_map_left_iff.mp hall

/-! ### What a record holds of its line -/

theorem strncpy_at_within (buf chunk : List Char) (k n : Nat)
    (hlen : k + n ≤ chunk.length)
    (hnul : ∀ c ∈ (chunk.drop k).take n, c ≠ NUL) :
    strncpy_at (fgets_store buf chunk) k n = (chunk.drop k).take n := by
  unfold strncpy_at c_string_at fgets_store
  rw [List.drop_append_of_le_length (by omega)]
  have hT : ((chunk.drop k).take n).length = n := by
    rw [List.length_take, List.length_drop]; omega
  have h := take_takeWhile_iff (fun c => decide (c ≠ NUL)) ((chunk.drop k).take n)
    (chunk.drop k ++ NUL :: List.drop (chunk.length + 1) buf)
    (fun c hc => by simpa using hnul c hc)
  rw [hT] at h
  rw [h, List.take_append_of_le_length (by rw [List.length_drop]; omega)]

theorem parsed_from_name (chunk : List Char) (rec : atom_record)
    (h : parsed_from chunk rec) (hlen : 16 ≤ chunk.length)
    (hnul : ∀ c ∈ (chunk.drop 12).take 4, c ≠ NUL) :
    rec.name = String.mk ((chunk.drop 12).take 4) := by
  obtain ⟨buf, loc, rfl⟩ := h
  show String.mk (strncpy_at (fgets_store buf chunk) 12 4) = _
  rw [strncpy_at_within buf chunk 12 4 (by omega) hnul]

theorem parsed_from_chain_id (chunk : List Char) (rec : atom_record)
    (h : parsed_from chunk rec) (hlen : 22 ≤ chunk.length) :
    rec.chain_id = chunk.getD 21 NUL := by
  obtain ⟨buf, loc, rfl⟩ := h
  show (fgets_store buf chunk).getD 21 NUL = _
  unfold fgets_store
  rw [List.getD_eq_getElem?_getD, List.getD_eq_getElem?_getD,
    List.getElem?_append_left (by omega)]

theorem first_chunk_long (l : List Char) (hl : LF ∉ l) (hlen : 80 ≤ l.length) :
    first_chunk l = l.take 80 := by
  unfold first_chunk
  have hl2 : LF ∉ l.take 80 := fun h => hl (List.mem_of_mem_take h)
  have h := fgets_read_full (l.drop 80 ++ [LF]) (l.take 80) hl2
  rw [List.length_take, Nat.min_eq_left hlen, ← List.append_assoc,
    List.take_append_drop] at h
  rw [h]

theorem first_chunk_columns (l : List Char) (hl : LF ∉ l) (k n : Nat)
    (hk : k + n ≤ l.length) (hk80 : k + n ≤ 80) :
    ((first_chunk l).drop k).take n = (l.drop k).take n := by
  by_cases h80 : l.length < 80
  · rw [first_chunk_short l hl h80, List.drop_append_of_le_length (by omega),
      List.take_append_of_le_length (by rw [List.length_drop]; omega)]
  · rw [first_chunk_long l hl (by omega), List.drop_take, List.take_take,
      Nat.min_eq_left (by omega)]

theorem first_chunk_length (l : List Char) (hl : LF ∉ l) (n : Nat)
    (hn : n ≤ l.length) (hn80 : n ≤ 80) : n ≤ (first_chunk l).length := by
  by_cases h80 : l.length < 80
  · rw [first_chunk_short l hl h80]; simp; omega
  · rw [first_chunk_long l hl (by omega), List.length_take]; omega

theorem forall2_mem_right {α β : Type} (R : α → β → Prop) :
    ∀ (l1 : List α) (l2 : List β), List.Forall₂ R l1 l2 →
      ∀ b ∈ l2, ∃ a ∈ l1, R a b := by
  intro l1 l2 h
  induction h with
  | nil => intro b hb; simp at hb
  | cons hR _ ih =>
    intro b hb
    rcases List.mem_cons.mp hb with rfl | hb
    · exact ⟨_, List.mem_cons_self _ _, hR⟩
    · obtain ⟨a, ha, hab⟩ := ih b hb
      exact ⟨a, List.mem_cons_of_mem _ ha, hab⟩

theorem mem_atom_lines_before_end (lines : List (List Char)) (l : List Char)
    (h : l ∈ atom_lines_before_end lines) : l ∈ lines ∧ is_atom_line l := by
  unfold atom_lines_before_end at h
  rw [List.mem_filter] at h
  exact ⟨(List.takeWhile_sublist _).subset h.1, by simpa using h.2⟩

/-- Every record read from a file of lines of at most 80 characters comes from
one of its `ATOM` lines. -/
theorem atoms_read_mem (lines : List (List Char)) (buf0 : List Char)
    (loc0 : scan_locals) (h : ∀ l ∈ lines, l.length ≤ 80 ∧ LF ∉ l)
    (a : atom_record) (ha : a ∈ atoms_read (file_of_lines lines) buf0 loc0) :
    ∃ l ∈ lines, is_atom_line l ∧ parsed_from (first_chunk l) a := by
  obtain ⟨l, hl, hpa⟩ := forall2_mem_right _ _ _
    (atoms_read_per_line lines buf0 loc0 h) a ha
  have hl2 := mem_atom_lines_before_end lines l (List.mem_of_mem_take hl)
  exact ⟨l, hl2.1, hl2.2, hpa⟩

/-! ## The records that are read -/

/-- C13, for lines of at most 80 characters (the buffer of `fgets` holds 80):
the atom array built by `read_pdb_file` consists of exactly one record per
line whose first six characters are `ATOM  ` among the lines before the first
line whose first six characters are `END   `, in file order, truncated to the
first `MAX_ATOMS` = 5000 such lines; each record is the one parsed from the
buffer that holds its line. Other lines add no record and do not stop the
loop. -/
theorem atoms_read_one_per_atom_line (lines : List (List Char)) (buf0 : List Char)
    (loc0 : scan_locals) (h : ∀ l ∈ lines, l.length ≤ 80 ∧ LF ∉ l) :
    List.Forall₂ (fun line rec => parsed_from (first_chunk line) rec)
      ((atom_lines_before_end lines).take MAX_ATOMS)
      (atoms_read (file_of_lines lines) buf0 loc0) ∧
    (atoms_read (file_of_lines lines) buf0 loc0).length
      = min MAX_ATOMS (atom_lines_before_end lines).length := by
  have hall := atoms_read_per_line lines buf0 loc0 h
  refine ⟨hall, ?_⟩
  rw [← hall.length_eq, List.length_take]

set_option maxRecDepth 100000 in
/-- The small sample file has lines of at most 80 characters, and two records
are read from it, by C13. -/
theorem atoms_read_one_per_atom_line_witness :
    (∀ l ∈ small_file_lines, l.length ≤ 80 ∧ LF ∉ l) ∧
    (atoms_read (file_of_lines small_file_lines) blank_buffer zero_locals).length = 2 :=
  have h : ∀ l ∈ small_file_lines, l.length ≤ 80 ∧ LF ∉ l := by decide
  ⟨h, (atoms_read_one_per_atom_line small_file_lines blank_buffer zero_locals h).2.trans
    (by decide)⟩

set_option maxRecDepth 100000 in
/-- C13 fails on a file whose first line has 86 characters, `REMARK`, 74
blanks and `END   `, followed by an `ATOM` line: no line before the `ATOM`
line starts with `END   `, so the claim requires one record, but the second
`fgets` call returns the string `END   ` and the loop stops with an empty
array. -/
theorem long_line_end_stops_reading :
    atom_lines_before_end long_remark_lines = [wide_y_line] ∧
    atoms_read (file_of_lines long_remark_lines) blank_buffer zero_locals = [] :=
  ⟨by decide, rfl⟩

theorem takeWhile_append_stop (p : Char → Bool) (x : Char) (rest : List Char)
    (hx : p x = false) :
    ∀ l : List Char, (l ++ x :: rest).takeWhile p = l.takeWhile p := by
  intro l
  induction l with
  | nil => simp [List.takeWhile_cons, hx]
  | cons c l ih =>
    by_cases hc : p c = true
    · simp only [List.cons_append, List.takeWhile_cons, hc, if_true, ih]
    · simp [List.takeWhile_cons, hc]

/-- The C string at an offset inside the string that `fgets` stored does not
depend on what the buffer held before. -/
theorem c_string_at_within (buf chunk : List Char) (k : Nat) (hk : k ≤ chunk.length) :
    c_string_at (fgets_store buf chunk) k
      = (chunk.drop k).takeWhile (fun c => decide (c ≠ NUL)) := by
  unfold c_string_at fgets_store
  rw [List.drop_append_of_le_length hk]
  exact takeWhile_append_stop _ NUL _ (by simp) _

theorem parsed_from_coordinates (chunk : List Char) (rec : atom_record)
    (h : parsed_from chunk rec) (hlen : 46 ≤ chunk.length) (mx my mz : Int × Nat)
    (hx : scan_float 8 ((chunk.drop 30).takeWhile (fun c => decide (c ≠ NUL))) = some mx)
    (hy : scan_float 8 ((chunk.drop 38).takeWhile (fun c => decide (c ≠ NUL))) = some my)
    (hz : scan_float 8 ((chunk.drop 46).takeWhile (fun c => decide (c ≠ NUL))) = some mz) :
    rec.x = decimal_value mx ∧ rec.y = decimal_value my ∧ rec.z = decimal_value mz := by
  obtain ⟨buf, loc, rfl⟩ := h
  refine ⟨?_, ?_, ?_⟩
  · show ((scan_float 8 (c_string_at (fgets_store buf chunk) 30)).map decimal_value).getD
      loc.x_coord = _
    rw [c_string_at_within buf chunk 30 (by omega), hx]; rfl
  · show ((scan_float 8 (c_string_at (fgets_store buf chunk) 38)).map decimal_value).getD
      loc.y_coord = _
    rw [c_string_at_within buf chunk 38 (by omega), hy]; rfl
  · show ((scan_float 8 (c_string_at (fgets_store buf chunk) 46)).map decimal_value).getD
      loc.z_coord = _
    rw [c_string_at_within buf chunk 46 (by omega), hz]; rfl

set_option maxRecDepth 100000 in
/-- C14 fails on the `ATOM` line generated from x = 1.000, y = 1234.567,
z = 2.000: `%8f` skips the three blanks of the x field without counting them
and then reads eight characters, `1.000123`, three of which belong to the y
field; the record holds x = 1.000123 instead of 1.000 (y and z are right). -/
theorem wide_y_corrupts_x (buf0 : List Char) (loc0 : scan_locals) :
    (wide_y_line.drop 30).take 8 = "   1.000".toList ∧
    (wide_y_line.drop 38).take 8 = "1234.567".toList ∧
    (wide_y_line.drop 46).take 8 = "   2.000".toList ∧
    ∃ a, atoms_read (file_of_lines [wide_y_line]) buf0 loc0 = [a] ∧
      a.x = 1.000123 ∧ a.x ≠ 1 ∧ a.y = 1234.567 ∧ a.z = 2 := by
  refine ⟨by decide, by decide, by decide, ?_⟩
  have hall := atoms_read_per_line [wide_y_line] buf0 loc0 (by decide)
  have hsel : (atom_lines_before_end [wide_y_line]).take MAX_ATOMS = [wide_y_line] := by
    decide
  rw [hsel, List.forall₂_cons_left_iff] at hall
  obtain ⟨a, rest, ha, hrest, heq⟩ := hall
  rw [List.forall₂_nil_left_iff] at hrest
  subst hrest
  obtain ⟨hx, hy, hz⟩ := parsed_from_coordinates (first_chunk wide_y_line) a ha
    (by decide) (1000123, 6) (1234567, 3) (2000, 3) (by decide) (by decide) (by decide)
  refine ⟨a, heq, ?_, ?_, ?_, ?_⟩
  · rw [hx]; unfold decimal_value; norm_num
  · rw [hx]; unfold decimal_value; norm_num
  · rw [hy]; unfold decimal_value; norm_num
  · rw [hz]; unfold decimal_value; norm_num

/-! ## A file without atoms -/

theorem atoms_read_nil_of_no_atom_line (lines : List (List Char)) (buf0 : List Char)
    (loc0 : scan_locals) (hlines : ∀ l ∈ lines, l.length ≤ 80 ∧ LF ∉ l)
    (hnone : atom_lines_before_end lines = []) :
    atoms_read (file_of_lines lines) buf0 loc0 = [] := by
  have hall := atoms_read_per_line lines buf0 loc0 hlines
  rw [hnone, List.take_nil, List.forall₂_nil_left_iff] at hall
  exact hall

/-- C15, for lines of at most 80 characters: when the program is started with
a file name, the array is allocated, the file can be opened and no line
before the first `END   ` line (or no line at all) starts with `ATOM  `, the
run ends inside `read_pdb_file` with the exit status 1; `compute_and_write_angles`
is not reached, so no report is opened or written. -/
theorem no_atom_line_is_fatal (argv : List String)
    (fopen_r : String → Option (List Char)) (fopen_w : String → Bool)
    (buf0 : List Char) (loc0 : scan_locals) (lines : List (List Char))
    (hargc : 2 ≤ argv.length)
    (hfile : fopen_r (argv.getD 1 "") = some (file_of_lines lines))
    (hlines : ∀ l ∈ lines, l.length ≤ 80 ∧ LF ∉ l)
    (hnone : atom_lines_before_end lines = []) :
    main argv fopen_r fopen_w true buf0 loc0 = run_outcome.exit_in_read_pdb_file 1 ∧
    (main argv fopen_r fopen_w true buf0 loc0).exit_status ≠ 0 ∧
    (main argv fopen_r fopen_w true buf0 loc0).report_written = none := by
  have hread : read_pdb_file (fopen_r (argv.getD 1 "")) buf0 loc0 = Except.error 1 := by
    rw [hfile]
    simp [read_pdb_file, atoms_read_nil_of_no_atom_line lines buf0 loc0 hlines hnone]
  have hmain : main argv fopen_r fopen_w true buf0 loc0
      = run_outcome.exit_in_read_pdb_file 1 := by
    unfold main
    rw [if_neg (by omega)]
    simp only [Bool.true_eq_false, if_false, hread]
  rw [hmain]
  exact ⟨rfl, by decide, rfl⟩

set_option maxRecDepth 100000 in
/-- A run on the file without `ATOM` line before `END` ends in `read_pdb_file`
with status 1, by C15. -/
theorem no_atom_line_is_fatal_witness :
    atom_lines_before_end headless_file_lines = [] ∧
    main ["pdb_torsion", "in.pdb"] (fun _ => some (file_of_lines headless_file_lines))
        (fun _ => true) true blank_buffer zero_locals
      = run_outcome.exit_in_read_pdb_file 1 :=
  have hnone : atom_lines_before_end headless_file_lines = [] := by decide
  ⟨hnone, (no_atom_line_is_fatal ["pdb_torsion", "in.pdb"]
    (fun _ => some (file_of_lines headless_file_lines)) (fun _ => true) blank_buffer
    zero_locals headless_file_lines (by decide) rfl (by decide) hnone).1⟩

set_option maxRecDepth 100000 in
/-- C15 fails on a file of one line of 86 characters, 80 blanks followed by
`ATOM  `: no line starts with `ATOM  `, but the second `fgets` call returns a
string that does, a record is stored, `read_pdb_file` returns, and the run
finishes with status 0 and a written report. -/
theorem long_line_atom_is_read :
    atom_lines_before_end long_blank_lines = [] ∧
    ∃ rows, main ["pdb_torsion", "in.pdb"]
        (fun _ => some (file_of_lines long_blank_lines)) (fun _ => true) true
        blank_buffer zero_locals
      = run_outcome.finished 0 (some rows) :=
  ⟨by decide, _, rfl⟩

/-! ## Untrimmed atom names -/

theorem find_atom_of_name_length (atoms : List atom_record) (r : Int) (c : Char)
    (q : String) (h : ∀ a ∈ atoms, a.name.length = 4) (hq : q.length ≠ 4) :
    find_atom atoms r c q = -1 := by
  rcases find_atom_cases atoms r c q with ⟨h1, _⟩ | ⟨k, a, _, ha, hm, _⟩
  · exact h1
  · have hlen := h a (List.getElem?_mem ha)
    rw [hm.2.2] at hlen
    exact absurd hlen hq

theorem query_names_length : ∀ q ∈ query_names, q.length ≠ 4 := by decide

theorem found_atom_of_name_length (atoms : List atom_record) (r : Int) (c : Char)
    (q : String) (h : ∀ a ∈ atoms, a.name.length = 4) (hq : q ∈ query_names) :
    found_atom atoms r c q = none := by
  unfold found_atom
  rw [find_atom_of_name_length atoms r c q h (query_names_length q hq)]
  rfl

theorem residue_row_all_sentinel (atoms : List atom_record) (r : Int) (c : Char)
    (h : ∀ a ∈ atoms, a.name.length = 4) :
    (residue_row atoms r c).alpha = 999 ∧ (residue_row atoms r c).beta = 999 ∧
    (residue_row atoms r c).gamma = 999 ∧ (residue_row atoms r c).delta = 999 ∧
    (residue_row atoms r c).epsilon = 999 ∧ (residue_row atoms r c).zeta = 999 ∧
    (residue_row atoms r c).chi = 999 := by
  have hf : ∀ (r2 : Int) (q : String), q ∈ query_names → found_atom atoms r2 c q = none :=
    fun r2 q hq => found_atom_of_name_length atoms r2 c q h hq
  refine ⟨?_, ?_, ?_, ?_, ?_, ?_, ?_⟩
  · rw [residue_row_alpha, angle_of_eq_sentinel_iff]
    exact Or.inl (hf _ _ (by decide))
  · rw [residue_row_beta, angle_of_eq_sentinel_iff]
    exact Or.inl (hf _ _ (by decide))
  · rw [residue_row_gamma, angle_of_eq_sentinel_iff]
    exact Or.inl (hf _ _ (by decide))
  · rw [residue_row_delta, angle_of_eq_sentinel_iff]
    exact Or.inl (hf _ _ (by decide))
  · rw [residue_row_epsilon, angle_of_eq_sentinel_iff]
    exact Or.inl (hf _ _ (by decide))
  · rw [residue_row_zeta, angle_of_eq_sentinel_iff]
    exact Or.inl (hf _ _ (by decide))
  · rw [residue_row_chi, angle_of_eq_sentinel_iff]
    exact Or.inl (hf _ _ (by decide))

theorem parsed_from_line_name (l : List Char) (rec : atom_record) (hl : LF ∉ l)
    (hlen : 16 ≤ l.length) (hnul : ∀ c ∈ (l.drop 12).take 4, c ≠ NUL)
    (h : parsed_from (first_chunk l) rec) :
    rec.name = String.mk ((l.drop 12).take 4) ∧ rec.name.length = 4 := by
  have hcol := first_chunk_columns l hl 12 4 (by omega) (by omega)
  have hname := parsed_from_name (first_chunk l) rec h
    (first_chunk_length l hl 16 hlen (by omega)) (by rw [hcol]; exact hnul)
  rw [hcol] at hname
  refine ⟨hname, ?_⟩
  rw [hname, String.length_mk, List.length_take, List.length_drop]
  omega

/-- C18: the name stored for an `ATOM` line of at least 16 characters is the
four characters of its columns 13-16, unchanged; and in every atom list whose
names all have exactly four characters, each lookup that
`compute_and_write_angles` makes (its query names have one to three
characters) returns -1, so every emitted row has all seven angles equal to
999.0. -/
theorem four_character_names_never_match :
    (∀ (l : List Char) (rec : atom_record), LF ∉ l → 16 ≤ l.length →
      (∀ c ∈ (l.drop 12).take 4, c ≠ NUL) → parsed_from (first_chunk l) rec →
      rec.name = String.mk ((l.drop 12).take 4) ∧ rec.name.length = 4) ∧
    (∀ atoms : List atom_record, (∀ a ∈ atoms, a.name.length = 4) →
      (∀ (r : Int) (c : Char), ∀ q ∈ query_names, find_atom atoms r c q = -1) ∧
      (∀ row ∈ compute_and_write_angles atoms,
        row.alpha = 999 ∧ row.beta = 999 ∧ row.gamma = 999 ∧ row.delta = 999 ∧
        row.epsilon = 999 ∧ row.zeta = 999 ∧ row.chi = 999)) := by
  refine ⟨fun l rec hl hlen hnul h => parsed_from_line_name l rec hl hlen hnul h,
    fun atoms h => ⟨fun r c q hq =>
      find_atom_of_name_length atoms r c q h (query_names_length q hq), ?_⟩⟩
  intro row hrow
  obtain ⟨a, _, rfl⟩ := compute_and_write_angles_mem atoms row hrow
  exact residue_row_all_sentinel atoms _ _ h

/-- For a file of lines of at most 80 characters without terminator
characters, whose `ATOM` lines have at least 16 characters, every name that
is read has four characters. -/
theorem atoms_read_name_length (lines : List (List Char)) (buf0 : List Char)
    (loc0 : scan_locals) (h : ∀ l ∈ lines, l.length ≤ 80 ∧ LF ∉ l ∧ NUL ∉ l)
    (h16 : ∀ l ∈ lines, is_atom_line l → 16 ≤ l.length) :
    ∀ a ∈ atoms_read (file_of_lines lines) buf0 loc0, a.name.length = 4 := by
  intro a ha
  obtain ⟨l, hl, hatom, hp⟩ := atoms_read_mem lines buf0 loc0
    (fun l hl => ⟨(h l hl).1, (h l hl).2.1⟩) a ha
  have hnul : ∀ c ∈ (l.drop 12).take 4, c ≠ NUL := fun c hc hcn =>
    (h l hl).2.2 (hcn ▸ List.mem_of_mem_drop (List.mem_of_mem_take hc))
  exact (parsed_from_line_name l a (h l hl).2.1 (h16 l hl hatom) hnul hp).2

/-- A run on such a file that reaches the report writes the sentinel 999.0 for
every angle of every row. -/
theorem report_all_sentinel (argv : List String)
    (fopen_r : String → Option (List Char)) (fopen_w : String → Bool)
    (malloc_ok : Bool) (buf0 : List Char) (loc0 : scan_locals)
    (lines : List (List Char)) (rows : List TorsionRow)
    (hfile : fopen_r (argv.getD 1 "") = some (file_of_lines lines))
    (h : ∀ l ∈ lines, l.length ≤ 80 ∧ LF ∉ l ∧ NUL ∉ l)
    (h16 : ∀ l ∈ lines, is_atom_line l → 16 ≤ l.length)
    (hrun : (main argv fopen_r fopen_w malloc_ok buf0 loc0).report_written = some rows) :
    ∀ row ∈ rows,
      row.alpha = 999 ∧ row.beta = 999 ∧ row.gamma = 999 ∧ row.delta = 999 ∧
      row.epsilon = 999 ∧ row.zeta = 999 ∧ row.chi = 999 := by
  intro row hrow
  have hnames := atoms_read_name_length lines buf0 loc0 h h16
  simp only [main, hfile, read_pdb_file] at hrun
  split_ifs at hrun with h1 h2 h3 h4 <;>
    simp only [run_outcome.report_written, reduceCtorEq, Option.some.injEq] at hrun
  all_goals
    subst hrun
    obtain ⟨a, _, rfl⟩ := compute_and_write_angles_mem _ row hrow
    exact residue_row_all_sentinel _ _ _ hnames

set_option maxRecDepth 100000 in
/-- The two atoms read from the small sample file have names of four
characters (` P  ` and ` O5'`), and the one row of the report has all its
angles equal to 999.0, by C18. -/
theorem four_character_names_never_match_witness :
    (∀ a ∈ atoms_read (file_of_lines small_file_lines) blank_buffer zero_locals,
      a.name.length = 4) ∧
    ∃ row,
      compute_and_write_angles
        (atoms_read (file_of_lines small_file_lines) blank_buffer zero_locals) = [row] ∧
      row.alpha = 999 ∧ row.beta = 999 ∧ row.gamma = 999 ∧ row.delta = 999 ∧
      row.epsilon = 999 ∧ row.zeta = 999 ∧ row.chi = 999 :=
  have hnames : ∀ a ∈ atoms_read (file_of_lines small_file_lines) blank_buffer zero_locals,
      a.name.length = 4 :=
    atoms_read_name_length small_file_lines blank_buffer zero_locals (by decide) (by decide)
  have hrows : compute_and_write_angles
      (atoms_read (file_of_lines small_file_lines) blank_buffer zero_locals)
      = [residue_row (atoms_read (file_of_lines small_file_lines) blank_buffer zero_locals)
          1 'A'] := rfl
  ⟨hnames, _, hrows,
    (four_character_names_never_match.2 _ hnames).2 _ (by rw [hrows]; exact List.mem_singleton.mpr rfl)⟩

/-! ## Keys that get a row -/

/-- The residue loop emits the row of every visited atom's key, except for
atoms of a leading run that continues the residue `res_num_prev`, provided
neighbouring atoms with equal residue numbers are in the same chain. -/
theorem residue_loop_covers (atoms : List atom_record) :
    ∀ (l : List atom_record) (prev : Int) (pc : Char),
      List.Chain' (fun a b : atom_record =>
        a.res_number = b.res_number → a.chain_id = b.chain_id) l →
      (∀ a, l.head? = some a → a.res_number = prev → a.chain_id = pc) →
      ∀ a ∈ l, residue_row atoms a.res_number a.chain_id ∈ residue_loop atoms l prev ∨
        (a.res_number = prev ∧ a.chain_id = pc) := by
  intro l
  induction l with
  | nil => intro prev pc _ _ a ha; simp at ha
  | cons b rest ih =>
    intro prev pc hchain hhead a ha
    have hrest : List.Chain' (fun a b : atom_record =>
        a.res_number = b.res_number → a.chain_id = b.chain_id) rest :=
      (List.chain'_cons'.mp hchain).2
    have hnext : ∀ x, rest.head? = some x → x.res_number = b.res_number →
        x.chain_id = b.chain_id := fun x hx hxb =>
      ((List.chain'_cons'.mp hchain).1 x hx hxb.symm).symm
    rw [residue_loop_cons]
    by_cases hb : b.res_number = prev
    · rw [if_neg (not_not.mpr hb)]
      rcases List.mem_cons.mp ha with rfl | ha
      · exact Or.inr ⟨hb, hhead _ rfl hb⟩
      · exact ih prev pc hrest
          (fun x hx hxp => by
            rw [hnext x hx (by rw [hxp, hb])]; exact hhead b rfl hb) a ha
    · rw [if_pos hb]
      rcases List.mem_cons.mp ha with rfl | ha
      · exact Or.inl (List.mem_cons_self _ _)
      · rcases ih b.res_number b.chain_id hrest hnext a ha with h | ⟨h1, h2⟩
        · exact Or.inl (List.mem_cons_of_mem _ h)
        · rw [h1, h2]; exact Or.inl (List.mem_cons_self _ _)

/-- When no residue is numbered -999 and neighbouring atoms with equal residue
numbers are in the same chain, every key that occurs in the list gets a
row. -/
theorem every_key_gets_row (atoms : List atom_record)
    (h999 : ∀ a ∈ atoms, a.res_number ≠ -999)
    (hchain : List.Chain' (fun a b : atom_record =>
      a.res_number = b.res_number → a.chain_id = b.chain_id) atoms) :
    ∀ a ∈ atoms,
      residue_row atoms a.res_number a.chain_id ∈ compute_and_write_angles atoms := by
  intro a ha
  rcases residue_loop_covers atoms atoms (-999) ' ' hchain
    (fun x hx hx9 => absurd hx9 (h999 x (List.mem_of_mem_head? hx))) a ha with h | ⟨h1, _⟩
  · exact h
  · exact absurd h1 (h999 a ha)

/-! ## Positions on one line in the arithmetic of the machine -/

theorem far_bonds :
    bond32 far1 far2 = ⟨1, 3, 0⟩ ∧ bond32 far2 far3 = ⟨16777220, 50331656, 0⟩ ∧
    bond32 far3 far4 = ⟨4, 12, 0⟩ := by
  decide!

theorem far_normals :
    cross_product32 (bond32 far1 far2) (bond32 far2 far3) = ⟨0, 0, -4⟩ ∧
    cross_product32 (bond32 far2 far3) (bond32 far3 far4) = ⟨0, 0, 16⟩ := by
  decide!

theorem far_cross_prod : cross_prod32 far1 far2 far3 far4 = 64 := by
  decide!

theorem far_acos_argument : acos_argument32 far1 far2 far3 far4 = -1 / 64 := by
  decide!

theorem far_takes_acos_branch : cross_prod32 far1 far2 far3 far4 > guard_bound64 := by
  decide!

theorem far_sign_test : ¬ sign_test32 far1 far2 far3 far4 < 0 := by
  decide!

theorem far_on_one_line :
    on_one_line (exact_atom far1) (exact_atom far2) (exact_atom far3) (exact_atom far4) :=
  ⟨0, 0, 0, 1, 3, 0, 0, 1, 16777220, 16777224, by
    simp only [exact_atom, atom_at_position, far1, far2, far3, far4]
    norm_num⟩

theorem far_degrees :
    round_to 24 (round_to 53 (round_to 53
      (round_to 24 (7144609359832253 / 4503599627370496) * 180) / PI64))
      = 11913827 / 131072 := by
  decide!

/-- When the guard `cross_prod > 1e-8` is false in machine arithmetic,
`dihedral_angle` returns 0 in machine arithmetic too. -/
theorem dihedral_angle32_guard_false (acos64 : ℚ → ℚ) (a1 a2 a3 a4 : float_position)
    (h : ¬ takes_acos_branch32 a1 a2 a3 a4) : dihedral_angle32 acos64 a1 a2 a3 a4 = 0 := by
  unfold dihedral_angle32
  exact if_neg h

/-- C9 fails in the arithmetic of the machine. The positions `(0, 0, 0)`,
`(1, 3, 0)`, `(16777220, 50331660, 0)`, `(16777224, 50331672, 0)` have binary32
coordinates and lie exactly on the line `y = 3 x`, `z = 0`, but the second bond
vector `(16777219, 50331657, 0)` is rounded to `(16777220, 50331656, 0)`, the
normals come out as `(0, 0, -4)` and `(0, 0, 16)`, `cross_prod` is 64, the
guard `cross_prod > 1e-8` is true and `acos` is called with `-1/64` (the dot
product -64 clamped to -1, over 64). The result is what `acos` returns there,
converted to degrees, not the constant 0.0 of the other branch: with the
`double` nearest to `arccos (-1/64)` it is `11913827 / 131072`, about 90.895. -/
theorem collinear_floats_take_acos_branch :
    on_one_line (exact_atom far1) (exact_atom far2) (exact_atom far3) (exact_atom far4) ∧
    cross_product32 (bond32 far1 far2) (bond32 far2 far3) = ⟨0, 0, -4⟩ ∧
    cross_product32 (bond32 far2 far3) (bond32 far3 far4) = ⟨0, 0, 16⟩ ∧
    cross_prod32 far1 far2 far3 far4 = 64 ∧
    takes_acos_branch32 far1 far2 far3 far4 ∧
    acos_argument32 far1 far2 far3 far4 = -1 / 64 ∧
    (∀ acos64 : ℚ → ℚ,
      dihedral_angle32 acos64 far1 far2 far3 far4
        = round_to 24 (round_to 53 (round_to 53
            (round_to 24 (acos64 (-1 / 64)) * 180) / PI64))) ∧
    (∀ acos64 : ℚ → ℚ, acos64 (-1 / 64) = 7144609359832253 / 4503599627370496 →
      dihedral_angle32 acos64 far1 far2 far3 far4 = 11913827 / 131072) := by
  have hres : ∀ acos64 : ℚ → ℚ,
      dihedral_angle32 acos64 far1 far2 far3 far4
        = round_to 24 (round_to 53 (round_to 53
            (round_to 24 (acos64 (-1 / 64)) * 180) / PI64)) := by
    intro acos64
    unfold dihedral_angle32
    rw [if_pos far_takes_acos_branch]
    simp only [if_neg far_sign_test, far_acos_argument]
  refine ⟨far_on_one_line, far_normals.1, far_normals.2, far_cross_prod,
    far_takes_acos_branch, far_acos_argument, hres, ?_⟩
  intro acos64 h
  rw [hres acos64, h, far_degrees]

/-! ## Reversal in the arithmetic of the machine -/

theorem skew_forward :
    cross_prod32 skew1 skew2 skew3 skew4 > guard_bound64 ∧
    acos_argument32 skew1 skew2 skew3 skew4 = 0 ∧
    sign_test32 skew1 skew2 skew3 skew4 = -1 / 16777216 := by
  decide!

theorem skew_reversed :
    cross_prod32 skew4 skew3 skew2 skew1 > guard_bound64 ∧
    acos_argument32 skew4 skew3 skew2 skew1 = 0 ∧
    sign_test32 skew4 skew3 skew2 skew1 = 1 / 16777216 := by
  decide!

theorem quarter_turn_degrees :
    round_to 24 (round_to 53 (round_to 53
      (round_to 24 (884279719003555 / 562949953421312) * 180) / PI64)) = 90 ∧
    round_to 24 (round_to 53 (round_to 53
      (-round_to 24 (884279719003555 / 562949953421312) * 180) / PI64)) = -90 := by
  decide!

/-- The equality of C8 needs the exact reading: in the arithmetic of the
machine the two orders of four atoms can get opposite signs. For the positions
`skew1 .. skew4` both orders call `acos` with the same argument 0, but the
value of the sign test is `-2^-24` in one order and `2^-24` in the other, so
one result is the negated angle and the other is not: -90 and 90 with the
`double` nearest to `arccos 0`. -/
theorem reversal_sign_in_binary32 :
    (∀ acos64 : ℚ → ℚ,
      dihedral_angle32 acos64 skew1 skew2 skew3 skew4
        = round_to 24 (round_to 53 (round_to 53
            (-round_to 24 (acos64 0) * 180) / PI64)) ∧
      dihedral_angle32 acos64 skew4 skew3 skew2 skew1
        = round_to 24 (round_to 53 (round_to 53
            (round_to 24 (acos64 0) * 180) / PI64))) ∧
    (∀ acos64 : ℚ → ℚ, acos64 0 = 884279719003555 / 562949953421312 →
      dihedral_angle32 acos64 skew1 skew2 skew3 skew4 = -90 ∧
      dihedral_angle32 acos64 skew4 skew3 skew2 skew1 = 90) := by
  have hres : ∀ acos64 : ℚ → ℚ,
      dihedral_angle32 acos64 skew1 skew2 skew3 skew4
        = round_to 24 (round_to 53 (round_to 53
            (-round_to 24 (acos64 0) * 180) / PI64)) ∧
      dihedral_angle32 acos64 skew4 skew3 skew2 skew1
        = round_to 24 (round_to 53 (round_to 53
            (round_to 24 (acos64 0) * 180) / PI64)) := by
    intro acos64
    have hf := skew_forward
    have hr := skew_reversed
    have hneg : sign_test32 skew1 skew2 skew3 skew4 < 0 := by rw [hf.2.2]; norm_num
    have hpos : ¬ sign_test32 skew4 skew3 skew2 skew1 < 0 := by rw [hr.2.2]; norm_num
    constructor
    · unfold dihedral_angle32
      rw [if_pos hf.1]
      simp only [if_pos hneg, hf.2.1]
    · unfold dihedral_angle32
      rw [if_pos hr.1]
      simp only [if_neg hpos, hr.2.1]
  refine ⟨hres, ?_⟩
  intro acos64 h
  rw [(hres acos64).1, (hres acos64).2, h]
  exact ⟨quarter_turn_degrees.2, quarter_turn_degrees.1⟩

/-! ## Rows of contiguous residues -/

/-- C12, as the code has it: when the first atom is not numbered -999 and
atoms that are neighbours in the list and have equal residue numbers are in
the same chain, the rows correspond one-to-one and in input order to the
maximal contiguous blocks of equal residue numbers (each computed with the
residue number and chain of the block's first atom), and every key (chain
identifier, residue number) that occurs in the list gets a row: the row whose
lookups are made with that residue number and that chain identifier. -/
theorem contiguous_keys_get_rows (atoms : List atom_record)
    (hfirst : ∀ a, atoms.head? = some a → a.res_number ≠ -999)
    (hchain : List.Chain' (fun a b : atom_record =>
      a.res_number = b.res_number → a.chain_id = b.chain_id) atoms) :
    (compute_and_write_angles atoms).map some
      = (residue_blocks atoms).map (block_row atoms) ∧
    ∀ a ∈ atoms,
      residue_row atoms a.res_number a.chain_id ∈ compute_and_write_angles atoms := by
  refine ⟨rows_one_per_block atoms hfirst, ?_⟩
  cases hatoms : atoms with
  | nil => intro a ha; simp at ha
  | cons b rest =>
    rw [hatoms] at hfirst hchain
    have hb : b.res_number ≠ -999 := hfirst b rfl
    have hrest : List.Chain' (fun a b : atom_record =>
        a.res_number = b.res_number → a.chain_id = b.chain_id) rest :=
      (List.chain'_cons'.mp hchain).2
    have hnext : ∀ x, rest.head? = some x → x.res_number = b.res_number →
        x.chain_id = b.chain_id := fun x hx hxb =>
      ((List.chain'_cons'.mp hchain).1 x hx hxb.symm).symm
    have hloop : compute_and_write_angles (b :: rest)
        = residue_row (b :: rest) b.res_number b.chain_id
          :: residue_loop (b :: rest) rest b.res_number := by
      unfold compute_and_write_angles
      rw [residue_loop_cons, if_pos hb]
    intro a ha
    rw [hloop]
    rcases List.mem_cons.mp ha with rfl | ha
    · exact List.mem_cons_self _ _
    · rcases residue_loop_covers (b :: rest) rest b.res_number b.chain_id hrest hnext a ha
        with h | ⟨h1, h2⟩
      · exact List.mem_cons_of_mem _ h
      · rw [h1, h2]; exact List.mem_cons_self _ _

/-- The sample chain keeps to one chain and does not start with residue -999;
the key of its last atom, `(A, 2)`, gets a row, by C12. -/
theorem contiguous_keys_get_rows_witness :
    (∀ a, sample_chain.head? = some a → a.res_number ≠ -999) ∧
    residue_row sample_chain 2 'A' ∈ compute_and_write_angles sample_chain :=
  have hfirst : ∀ a, sample_chain.head? = some a → a.res_number ≠ -999 := by
    intro a ha
    have : a = named_atom "P" 1 'A' 0 0 0 := by
      have h2 : sample_chain.head? = some (named_atom "P" 1 'A' 0 0 0) := rfl
      rw [h2] at ha
      exact (Option.some.inj ha).symm
    rw [this]; decide
  have hchain : List.Chain' (fun a b : atom_record =>
      a.res_number = b.res_number → a.chain_id = b.chain_id) sample_chain := by
    simp [sample_chain, named_atom]
  ⟨hfirst, (contiguous_keys_get_rows sample_chain hfirst hchain).2
    (named_atom "C6" 2 'A' 3 4 4) (by simp [sample_chain])⟩

/-! ## The base carbon that the code looks up -/

/-- C16, as the code has it: every emitted row is the row of the loop body
for the residue number and chain of an atom of the list, and in such a row
chi is the dihedral of O4', C1', N1 and C6 for a residue that has these four
atoms and neither N9 nor C8 (a pyrimidine), and the dihedral of O4', C1', N9
and C8 for a residue that has these four (a purine). -/
theorem chi_base_carbon (atoms : List atom_record) :
    (∀ row ∈ compute_and_write_angles atoms,
      ∃ a ∈ atoms, row = residue_row atoms a.res_number a.chain_id) ∧
    ∀ (r : Int) (c : Char),
      (∀ o4 c1 n1 c6 : atom_record,
        found_atom atoms r c "O4'" = some o4 → found_atom atoms r c "C1'" = some c1 →
        found_atom atoms r c "N1" = some n1 → found_atom atoms r c "C6" = some c6 →
        found_atom atoms r c "N9" = none → found_atom atoms r c "C8" = none →
        (residue_row atoms r c).chi = dihedral_angle o4 c1 n1 c6) ∧
      (∀ o4 c1 n9 c8 : atom_record,
        found_atom atoms r c "O4'" = some o4 → found_atom atoms r c "C1'" = some c1 →
        found_atom atoms r c "N9" = some n9 → found_atom atoms r c "C8" = some c8 →
        (residue_row atoms r c).chi = dihedral_angle o4 c1 n9 c8) := by
  refine ⟨fun row h => compute_and_write_angles_mem atoms row h, fun r c => ⟨?_, ?_⟩⟩
  · intro o4 c1 n1 c6 h1 h2 h3 h4 h5 h6
    rw [residue_row_chi, h1, h2, h3, h4, h5, h6]
    rfl
  · intro o4 c1 n9 c8 h1 h2 h3 h4
    rw [residue_row_chi, h1, h2, h3, h4]
    rfl

/-- In the sample chain residue 2 is a pyrimidine and residue 1 a purine: the
chi of the one is the dihedral that ends in C6, the chi of the other the
dihedral that ends in C8, by C16. -/
theorem chi_base_carbon_witness :
    found_atom sample_chain 2 'A' "N9" = none ∧
    found_atom sample_chain 2 'A' "C8" = none ∧
    (residue_row sample_chain 2 'A').chi
      = dihedral_angle (named_atom "O4'" 2 'A' 2 3 2) (named_atom "C1'" 2 'A' 2 3 3)
          (named_atom "N1" 2 'A' 2 4 3) (named_atom "C6" 2 'A' 3 4 4) ∧
    (residue_row sample_chain 1 'A').chi
      = dihedral_angle (named_atom "O4'" 1 'A' 0 1 0) (named_atom "C1'" 1 'A' 0 1 1)
          (named_atom "N9" 1 'A' 0 2 1) (named_atom "C8" 1 'A' 1 2 2) :=
  ⟨rfl, rfl, ((chi_base_carbon sample_chain).2 2 'A').1 _ _ _ _ rfl rfl rfl rfl rfl rfl,
    ((chi_base_carbon sample_chain).2 1 'A').2 _ _ _ _ rfl rfl rfl rfl⟩

end PdbTorsion
